import Mathlib

/-!
# RSA key generation, encryption and decryption: number theory and protocol engine

A shallow embedding of `numtheory.c` and `rsa.c`.

* `mpz_t` values are `Int`; `uint64_t` / `size_t` values are `Nat`, reduced modulo `2 ^ 64`
  where the C arithmetic can wrap.
* Every function that contains a loop, a division or a buffer access returns an `Option`:
  `none` stands for "the call does not return normally" (GMP division by zero, an access
  outside an allocated buffer, or a loop that never exits).  Loops are unrolled over an
  explicit `fuel` counter; for the loops that always terminate the caller supplies a bound
  that the theorems below prove sufficient on their inputs, for the rejection-sampling
  loops the bound is a parameter.
* The GMP random state is an arbitrary stream `rand : Nat → Nat` together with a cursor;
  each draw reduces the next stream element into the range of the GMP call, so every
  stream is admissible and every in-range outcome is produced by some stream.
* Files are lists of bytes (`Nat` values below 256) with an end-of-file indicator.
-/

namespace RSA

/-! ## GMP and libc primitives -/

/-- Digits of `x` in radix `b`, most significant first, without leading zeros
(the empty list for `x = 0`), pushed in front of `acc`. -/
def digits_be (b : Nat) : Nat → Nat → List Nat → List Nat
  | 0, _, acc => acc
  | fuel + 1, x, acc => if x = 0 then acc else digits_be b fuel (x / b) (x % b :: acc)

/-- The call `mpz_sizeinbase(x, 2)`: the number of binary digits of `|x|`, and 1 for `x = 0`. -/
def mpz_sizeinbase2 (x : Int) : Nat :=
  if x = 0 then 1 else (digits_be 2 x.natAbs x.natAbs []).length

/-- The call `mpz_urandomb(rop, state, bits)`: a value in `[0, 2 ^ bits - 1]`. -/
def mpz_urandomb (rand : Nat → Nat) (pos : Nat) (bits : Nat) : Int :=
  ((rand pos % 2 ^ bits : Nat) : Int)

/-- The call `mpz_urandomm(rop, state, n)` for `n > 0`: a value in `[0, n - 1]`. -/
def mpz_urandomm (rand : Nat → Nat) (pos : Nat) (n : Int) : Int :=
  ((rand pos % n.natAbs : Nat) : Int)

/-- The call `mpz_import(m, count, 1, 1, 1, 0, data)`: the big-endian value of the bytes. -/
def mpz_import (data : List Nat) : Int :=
  ((data.foldl (fun acc b => acc * 256 + b) 0 : Nat) : Int)

/-- The call `mpz_export(data, &count, 1, 1, 1, 0, m)`: the big-endian bytes of `|m|`
without leading zero bytes; nothing is written for `m = 0`. -/
def mpz_export (m : Int) : List Nat :=
  digits_be 256 m.natAbs m.natAbs []

/-- ASCII code of a lower-case hexadecimal digit. -/
def hex_char (d : Nat) : Nat := if d < 10 then 48 + d else 87 + d

/-- The conversion `%Zx` of `gmp_fprintf`: optional minus sign, lower-case hexadecimal digits
without leading zeros, `0` for zero. -/
def print_Zx (x : Int) : List Nat :=
  (if x < 0 then [45] else []) ++
    (if x = 0 then [48] else (digits_be 16 x.natAbs x.natAbs []).map hex_char)

/-- The libc predicate `isspace` in the C locale. -/
def isspace (c : Nat) : Bool := c = 32 || (9 ≤ c && c ≤ 13)

/-- Value of a hexadecimal digit character, if it is one. -/
def hex_val (c : Nat) : Option Nat :=
  if 48 ≤ c ∧ c ≤ 57 then some (c - 48)
  else if 97 ≤ c ∧ c ≤ 102 then some (c - 87)
  else if 65 ≤ c ∧ c ≤ 70 then some (c - 55)
  else none

/-- The libc predicate `isxdigit`. -/
def isxdigit (c : Nat) : Bool := (hex_val c).isSome

/-- A stream opened for reading: the bytes not yet consumed and the end-of-file indicator
tested by `feof`. -/
structure InStream where
  rest : List Nat
  eof : Bool
deriving DecidableEq

/-- The call `fread(ptr, 1, count, stream)`: the bytes read and the stream afterwards.  The
end-of-file indicator is raised when fewer than `count` bytes were available; a request
for zero bytes leaves the stream untouched. -/
def fread (count : Nat) (f : InStream) : List Nat × InStream :=
  if count = 0 then ([], f)
  else (f.rest.take count, ⟨f.rest.drop count, f.eof || decide (f.rest.length < count)⟩)

/-- The call `gmp_fscanf(stream, "%Zx\n", c)`: skip white space, read an optional minus sign
and a non-empty run of hexadecimal digits, then skip white space again.  The first
component is the value stored into `c`, or `none` when the conversion fails and `c` keeps
its old value.  The end-of-file indicator is raised when the scan reached the end of the
input. -/
def fscanf_Zx (f : InStream) : Option Int × InStream :=
  let s1 := f.rest.dropWhile isspace
  let neg := s1.head? = some 45
  let s2 := if neg then s1.tail else s1
  let ds := s2.takeWhile isxdigit
  let s3 := s2.dropWhile isxdigit
  if ds = [] then (none, ⟨s2, decide (s2 = [])⟩)
  else
    let v : Nat := ds.foldl (fun acc c => acc * 16 + (hex_val c).getD 0) 0
    let s4 := s3.dropWhile isspace
    (some (if neg then -(v : Int) else (v : Int)), ⟨s4, decide (s4 = [])⟩)

/-- The call `fscanf(stream, "%s\n", username)` with a destination array of `cap` bytes:
skip white space, read the maximal run of bytes that are not white space, store it with a
terminating NUL, then skip white space again.  The first component is the C string left in
`username` (the stored bytes up to the first NUL), or `none` when the input ends before any
byte is read and `username` keeps its old content.  The outer `none` is a store past the
end of the array. -/
def fscanf_s (cap : Nat) (f : InStream) : Option (Option (List Nat) × InStream) :=
  let s1 := f.rest.dropWhile isspace
  let tok := s1.takeWhile (fun c => !isspace c)
  let s2 := s1.dropWhile (fun c => !isspace c)
  if tok = [] then some (none, ⟨s1, decide (s1 = [])⟩)
  else if cap < tok.length + 1 then none
  else
    let s3 := s2.dropWhile isspace
    some (some (tok.takeWhile (fun c => c ≠ 0)), ⟨s3, decide (s3 = [])⟩)

/-! ## numtheory.c -/

/-- The `while` loop of `pow_mod`, on the variables `v`, `p` and `temp_exponent`.
`mpz_mod` yields the non-negative residue and faults on a zero modulus; `mpz_div_ui` is
`mpz_fdiv_q_ui`. -/
def pow_mod_loop : Nat → Int → Int → Int → Int → Option Int
  | 0, _, _, _, _ => none
  | fuel + 1, v, p, temp_exponent, modulus =>
    if 0 < temp_exponent then
      if modulus = 0 then none
      else
        let v1 := if temp_exponent % 2 = 1 then (v * p) % modulus else v
        pow_mod_loop fuel v1 ((p * p) % modulus) (Int.fdiv temp_exponent 2) modulus
    else some v

/-- Function `pow_mod` of `numtheory.c`: the value stored in `out`. -/
def pow_mod (base exponent modulus : Int) : Option Int :=
  pow_mod_loop (exponent.toNat + 1) 1 base exponent modulus

/-- The loop of `is_prime` that writes `n - 1 = 2 ^ s * r`, on the variables `s` and `r`
(`mpz_mod_ui` is `mpz_fdiv_r_ui`, `mpz_div_ui` is `mpz_fdiv_q_ui`). -/
def is_prime_factor_loop : Nat → Int → Int → Option (Int × Int)
  | 0, _, _ => none
  | fuel + 1, s, r =>
    if Int.fmod r 2 = 0 then is_prime_factor_loop fuel (s + 1) (Int.fdiv r 2)
    else some (s, r)

/-- The inner `while` loop of `is_prime`, on the variables `j` and `y`.  The result
`some none` is the `return false` inside the loop, `some (some y)` is a normal exit of the
loop with the final `y`. -/
def is_prime_square_loop : Nat → Int → Int → Int → Int → Option (Option Int)
  | 0, _, _, _, _ => none
  | fuel + 1, j, s_minus_one, y, n =>
    if j ≤ s_minus_one ∧ y ≠ n - 1 then
      match pow_mod y 2 n with
      | none => none
      | some y1 =>
        if y1 = 1 then some none
        else is_prime_square_loop fuel (j + 1) s_minus_one y1 n
    else some (some y)

/-- The `for` loop of `is_prime`; the first argument counts the iterations still to run,
`pos` is the cursor of the random stream. -/
def is_prime_witness_loop (rand : Nat → Nat) (n s r : Int) : Nat → Nat → Option (Bool × Nat)
  | 0, pos => some (true, pos)
  | k + 1, pos =>
    let random_generated := mpz_urandomm rand pos (n - 3) + 2
    match pow_mod random_generated r n with
    | none => none
    | some y =>
      if y ≠ 1 ∧ y ≠ n - 1 then
        match is_prime_square_loop (s.toNat + 1) 1 (s - 1) y n with
        | none => none
        | some none => some (false, pos + 1)
        | some (some y1) =>
          if y1 ≠ n - 1 then some (false, pos + 1)
          else is_prime_witness_loop rand n s r k (pos + 1)
      else is_prime_witness_loop rand n s r k (pos + 1)

/-- Function `is_prime` of `numtheory.c`: the verdict and the cursor of the random stream
after the call. -/
def is_prime (rand : Nat → Nat) (n : Int) (iters : Nat) (pos : Nat) : Option (Bool × Nat) :=
  if n < 2 then some (false, pos)
  else if n ≠ 2 ∧ Int.fmod n 2 = 0 then some (false, pos)
  else if n = 2 ∨ n = 3 then some (true, pos)
  else
    match is_prime_factor_loop n.toNat 0 (n - 1) with
    | none => none
    | some (s, r) => is_prime_witness_loop rand n s r iters pos

/-- Function `make_prime` of `numtheory.c`: the value left in `p` and the cursor of the
random stream; `fuel` bounds the number of candidates drawn. -/
def make_prime (rand : Nat → Nat) (bits iters : Nat) : Nat → Nat → Option (Int × Nat)
  | 0, _ => none
  | fuel + 1, pos =>
    let p := mpz_urandomb rand pos ((bits + 1) % 2 ^ 64)
    match is_prime rand p iters (pos + 1) with
    | none => none
    | some (b, pos1) =>
      if b = false ∨ mpz_sizeinbase2 p < (bits + 1) % 2 ^ 64 then
        make_prime rand bits iters fuel pos1
      else some (p, pos1)

/-- The `while` loop of `gcd`, on the variables `a_temp` and `b_temp` (`mpz_mmod` is
`mpz_fdiv_r`, the remainder of the floor division). -/
def gcd_loop : Nat → Int → Int → Option Int
  | 0, _, _ => none
  | fuel + 1, a_temp, b_temp =>
    if b_temp ≠ 0 then gcd_loop fuel b_temp (Int.fmod a_temp b_temp)
    else some a_temp

/-- Function `gcd` of `numtheory.c`: the value stored in `d`. -/
def gcd (a b : Int) : Option Int := gcd_loop (b.natAbs + 1) a b

/-- The `while` loop of `mod_inverse`; the result is the final pair `(r, t)` (`mpz_div` is
`mpz_fdiv_q`, the floor quotient). -/
def mod_inverse_loop : Nat → Int → Int → Int → Int → Option (Int × Int)
  | 0, _, _, _, _ => none
  | fuel + 1, r, r_prime, t, t_prime =>
    if r_prime ≠ 0 then
      let q := Int.fdiv r r_prime
      mod_inverse_loop fuel r_prime (r - q * r_prime) t_prime (t - q * t_prime)
    else some (r, t)

/-- Function `mod_inverse` of `numtheory.c`: the value stored in `i`. -/
def mod_inverse (a n : Int) : Option Int :=
  match mod_inverse_loop (a.natAbs + 1) n a 0 1 with
  | none => none
  | some (r, t) =>
    if 1 < r then some 0
    else if t < 0 then some (t + n)
    else some t

/-! ## rsa.c -/

/-- The `do ... while` loop of `rsa_make_pub` that selects the public exponent. -/
def rsa_make_pub_e_loop (rand : Nat → Nat) (nbits : Nat) (totient : Int) :
    Nat → Nat → Option (Int × Nat)
  | 0, _ => none
  | fuel + 1, pos =>
    let e := mpz_urandomb rand pos nbits
    match gcd e totient with
    | none => none
    | some gcd_e_totient =>
      if 1 < gcd_e_totient then rsa_make_pub_e_loop rand nbits totient fuel (pos + 1)
      else some (e, pos + 1)

/-- The modulus `2 * nbits / 4` of the expression for `pbits` in `rsa_make_pub`, in
`uint64_t` arithmetic. -/
def rsa_make_pub_range (nbits : Nat) : Nat := (2 * nbits) % 2 ^ 64 / 4

/-- The local `pbits` of `rsa_make_pub`: `(random() % (2 * nbits / 4)) + (nbits / 4)` in
`uint64_t` arithmetic, `rnd` being the value returned by `random()`. -/
def rsa_make_pub_pbits (rnd nbits : Nat) : Nat :=
  (rnd % rsa_make_pub_range nbits + nbits / 4) % 2 ^ 64

/-- The local `qbits` of `rsa_make_pub`: `nbits - pbits` in `uint64_t` arithmetic. -/
def rsa_make_pub_qbits (rnd nbits : Nat) : Nat :=
  (nbits + 2 ^ 64 - rsa_make_pub_pbits rnd nbits) % 2 ^ 64

/-- Function `rsa_make_pub` of `rsa.c`: the values left in `(p, q, n, e)` and the cursor of
the random stream.  `rnd` is the value returned by `random()`; `fuel` bounds the number of
candidates drawn by each rejection loop.  A zero modulus in the expression for `pbits` is
an integer division by zero. -/
def rsa_make_pub (rand : Nat → Nat) (rnd nbits iters fuel pos : Nat) :
    Option (Int × Int × Int × Int × Nat) :=
  if rsa_make_pub_range nbits = 0 then none
  else
    match make_prime rand (rsa_make_pub_pbits rnd nbits) iters fuel pos with
    | none => none
    | some (p, pos1) =>
      match make_prime rand (rsa_make_pub_qbits rnd nbits) iters fuel pos1 with
      | none => none
      | some (q, pos2) =>
        let n := p * q
        let totient := (p - 1) * (q - 1)
        match rsa_make_pub_e_loop rand nbits totient fuel pos2 with
        | none => none
        | some (e, pos3) => some (p, q, n, e, pos3)

/-- Function `rsa_make_priv` of `rsa.c`: the value stored in `d`. -/
def rsa_make_priv (e p q : Int) : Option Int :=
  mod_inverse e ((p - 1) * (q - 1))

/-- Function `rsa_encrypt` of `rsa.c`: the value stored in `c`. -/
def rsa_encrypt (m e n : Int) : Option Int := pow_mod m e n

/-- Function `rsa_decrypt` of `rsa.c`: the value stored in `m`. -/
def rsa_decrypt (c d n : Int) : Option Int := pow_mod c d n

/-- The `while` loop of `rsa_encrypt_file`; `out` is the text written so far. -/
def rsa_encrypt_file_loop (n e : Int) (k : Nat) : Nat → InStream → List Nat → Option (List Nat)
  | 0, _, _ => none
  | fuel + 1, infile, out =>
    if infile.eof then some out
    else
      let (chunk, infile1) := fread (k - 1) infile
      let m := mpz_import (255 :: chunk)
      match rsa_encrypt m e n with
      | none => none
      | some c => rsa_encrypt_file_loop n e k fuel infile1 (out ++ print_Zx c ++ [10])

/-- Function `rsa_encrypt_file` of `rsa.c`: the text written to `outfile` for the given
content of `infile`.  With `k = 0` the store `array[0] = 0xFF` falls outside the
allocation. -/
def rsa_encrypt_file (infile : List Nat) (n e : Int) : Option (List Nat) :=
  let k := (mpz_sizeinbase2 n - 1) / 8
  if k = 0 then none
  else rsa_encrypt_file_loop n e k (infile.length + 2) ⟨infile, false⟩ []

/-- The `while` loop of `rsa_decrypt_file`; `c` keeps its value when a scan fails, `out`
is the data written so far.  An export of zero bytes or of more than `k` bytes leaves the
`k`-byte buffer. -/
def rsa_decrypt_file_loop (n d : Int) (k : Nat) :
    Nat → InStream → Int → List Nat → Option (List Nat)
  | 0, _, _, _ => none
  | fuel + 1, infile, c, out =>
    if infile.eof then some out
    else
      let (scanned, infile1) := fscanf_Zx infile
      let c1 := scanned.getD c
      if 0 < c1 then
        match rsa_decrypt c1 d n with
        | none => none
        | some m =>
          let bytes := mpz_export m
          if bytes.length = 0 ∨ k < bytes.length then none
          else rsa_decrypt_file_loop n d k fuel infile1 c1 (out ++ bytes.tail)
      else rsa_decrypt_file_loop n d k fuel infile1 c1 out

/-- Function `rsa_decrypt_file` of `rsa.c`: the data written to `outfile` for the given
content of `infile`. -/
def rsa_decrypt_file (infile : List Nat) (n d : Int) : Option (List Nat) :=
  let k := (mpz_sizeinbase2 n - 1) / 8
  rsa_decrypt_file_loop n d k (infile.length + 2) ⟨infile, false⟩ 0 []

/-- Function `rsa_write_pub` of `rsa.c`: the text written to `pbfile`; `username` is the C
string passed (its bytes before the terminating NUL). -/
def rsa_write_pub (n e s : Int) (username : List Nat) : List Nat :=
  print_Zx n ++ [10] ++ (print_Zx e ++ [10]) ++ (print_Zx s ++ [10]) ++ (username ++ [10])

/-- Function `rsa_read_pub` of `rsa.c`: the values left in `(n, e, s, username)` and the
stream afterwards.  The arguments `n`, `e`, `s`, `username` are the contents of the caller's
variables before the call (a failed conversion leaves them unchanged, the return values of
the scans are not inspected); `cap` is the size of the caller's `username` array. -/
def rsa_read_pub (n e s : Int) (username : List Nat) (cap : Nat) (pbfile : InStream) :
    Option (Int × Int × Int × List Nat × InStream) :=
  let (r1, f1) := fscanf_Zx pbfile
  let (r2, f2) := fscanf_Zx f1
  let (r3, f3) := fscanf_Zx f2
  match fscanf_s cap f3 with
  | none => none
  | some (r4, f4) => some (r1.getD n, r2.getD e, r3.getD s, r4.getD username, f4)

/-- Function `rsa_write_priv` of `rsa.c`: the text written to `pvfile`. -/
def rsa_write_priv (n d : Int) : List Nat :=
  print_Zx n ++ [10] ++ (print_Zx d ++ [10])

/-- Function `rsa_read_priv` of `rsa.c`: the values left in `(n, d)` and the stream
afterwards; the arguments `n`, `d` are the contents of the caller's variables before the
call. -/
def rsa_read_priv (n d : Int) (pvfile : InStream) : Int × Int × InStream :=
  let (r1, f1) := fscanf_Zx pvfile
  let (r2, f2) := fscanf_Zx f1
  (r1.getD n, r2.getD d, f2)

/-- Function `rsa_sign` of `rsa.c`: the value stored in `s`. -/
def rsa_sign (m d n : Int) : Option Int := pow_mod m d n

/-- Function `rsa_verify` of `rsa.c`: the verdict. -/
def rsa_verify (m s e n : Int) : Option Bool :=
  match pow_mod s e n with
  | none => none
  | some t => if t = m then some true else some false

/-! ## Reference predicate for the Miller-Rabin rounds -/

/-- The strong-probable-prime test of the specification for `n - 1 = 2 ^ s * r` and the
witness `a`: `a ^ r ≡ 1 (mod n)`, or `a ^ (2 ^ j * r) ≡ -1 (mod n)` for some `0 ≤ j < s`.
This predicate follows the words of the specification, not the code. -/
def strong_probable_prime (n : Int) (s : Nat) (r a : Int) : Prop :=
  a ^ r.toNat ≡ 1 [ZMOD n] ∨ ∃ j, j < s ∧ a ^ (2 ^ j * r.toNat) ≡ -1 [ZMOD n]

instance (n : Int) (s : Nat) (r a : Int) : Decidable (strong_probable_prime n s r a) := by
  unfold strong_probable_prime
  infer_instance

/-! ## Modular exponentiation -/

theorem fdiv_two (e : Int) : Int.fdiv e 2 = e / 2 := Int.fdiv_eq_ediv _ (by norm_num)

theorem pow_mod_loop_pos (fuel : Nat) (v p e m : Int) (he : 0 < e) (hm : 0 < m)
    (hf : e.toNat < fuel) :
    pow_mod_loop fuel v p e m = some ((v * p ^ e.toNat) % m) := by
  induction fuel generalizing v p e with
  | zero => omega
  | succ fuel ih =>
    unfold pow_mod_loop
    have hm0 : m ≠ 0 := by omega
    simp only [he, if_true, hm0, if_false, fdiv_two]
    have hk : e.toNat = 2 * (e / 2).toNat + (e % 2).toNat := by omega
    by_cases h1 : e = 1
    · subst h1
      cases fuel with
      | zero => omega
      | succ f => simp [pow_mod_loop]
    · have h2 : 0 < e / 2 := by omega
      have h3 : (e / 2).toNat < fuel := by omega
      rw [ih _ _ _ h2 h3]
      congr 1
      rw [hk, pow_add, pow_mul]
      show Int.ModEq m _ _
      have hp : Int.ModEq m (p * p % m) (p ^ 2) := by
        rw [pow_two]; exact Int.mod_modEq _ _
      by_cases hodd : e % 2 = 1
      · simp only [hodd, if_true]
        have : (1:Int).toNat = 1 := rfl
        rw [this, pow_one]
        calc v * p % m * (p * p % m) ^ (e / 2).toNat
            ≡ (v * p) * (p ^ 2) ^ (e / 2).toNat [ZMOD m] :=
              Int.ModEq.mul (Int.mod_modEq _ _) (hp.pow _)
          _ = v * ((p ^ 2) ^ (e / 2).toNat * p) := by ring
      · have h0 : e % 2 = 0 := by omega
        simp only [h0]
        have : (0:Int).toNat = 0 := rfl
        simp only [this, pow_zero, mul_one]
        exact Int.ModEq.mul (Int.ModEq.refl _) (hp.pow _)

theorem pow_mod_pos (b e m : Int) (he : 0 < e) (hm : 0 < m) :
    pow_mod b e m = some (b ^ e.toNat % m) := by
  unfold pow_mod
  rw [pow_mod_loop_pos _ _ _ _ _ he hm (by omega), one_mul]

theorem pow_mod_zero (b m : Int) : pow_mod b 0 m = some 1 := by
  simp [pow_mod, pow_mod_loop]

theorem pow_mod_eq (b e m : Int) (he : 0 ≤ e) (hm : 1 < m) :
    pow_mod b e m = some (b ^ e.toNat % m) := by
  rcases eq_or_lt_of_le he with h | h
  · subst h
    rw [pow_mod_zero]
    simp
    rw [Int.emod_eq_of_lt] <;> omega
  · exact pow_mod_pos b e m h (by omega)

/-! ## Euclid's algorithm and the modular inverse -/

theorem int_gcd_emod (a b : Int) (ha : 0 ≤ a) (hb : 0 ≤ b) :
    Int.gcd b (a % b) = Int.gcd a b := by
  obtain ⟨x, rfl⟩ := Int.eq_ofNat_of_zero_le ha
  obtain ⟨y, rfl⟩ := Int.eq_ofNat_of_zero_le hb
  rw [← Int.natCast_mod, Int.gcd_natCast_natCast, Int.gcd_natCast_natCast, Nat.gcd_comm y,
    ← Nat.gcd_rec]
  exact Nat.gcd_comm _ _

theorem gcd_loop_nonneg (fuel : Nat) (a b : Int) (ha : 0 ≤ a) (hb : 0 ≤ b)
    (hf : b.natAbs < fuel) : gcd_loop fuel a b = some (Int.gcd a b : Int) := by
  induction fuel generalizing a b with
  | zero => omega
  | succ fuel ih =>
    unfold gcd_loop
    by_cases h0 : b = 0
    · subst h0
      simp
      exact (abs_of_nonneg ha).symm
    · simp only [ne_eq, h0, not_false_eq_true, if_true]
      have hbpos : 0 < b := by omega
      rw [Int.fmod_eq_emod _ hb]
      have h1 : 0 ≤ a % b := Int.emod_nonneg _ h0
      have h2 : a % b < b := Int.emod_lt_of_pos _ hbpos
      rw [ih b (a % b) hb h1 (by omega), int_gcd_emod a b ha hb]

theorem gcd_nonneg_eq (a b : Int) (ha : 0 ≤ a) (hb : 0 ≤ b) :
    gcd a b = some (Int.gcd a b : Int) :=
  gcd_loop_nonneg _ a b ha hb (by omega)

theorem mod_inverse_loop_spec (a n : Int) (fuel : Nat) (r r_prime t t_prime sg : Int)
    (hr : 0 ≤ r) (hr' : 0 ≤ r_prime) (hf : r_prime.natAbs < fuel)
    (hsg : sg = 1 ∨ sg = -1)
    (hdet : r_prime * t - r * t_prime = sg * n)
    (ht : 0 ≤ sg * t) (ht' : sg * t_prime ≤ 0)
    (hle : r_prime ≤ r ∨ t = 0)
    (hJ : sg * t * r ≤ n ∨ t_prime = 0)
    (hc : r ≡ t * a [ZMOD n]) (hc' : r_prime ≡ t_prime * a [ZMOD n])
    (hg : Int.gcd r r_prime = Int.gcd n a) :
    ∃ tf sf tq, mod_inverse_loop fuel r r_prime t t_prime = some ((Int.gcd n a : Int), tf) ∧
      (sf = 1 ∨ sf = -1) ∧ 0 ≤ sf * tf ∧ (Int.gcd n a : Int) * tq = sf * n ∧
      (sf * tf * (Int.gcd n a : Int) ≤ n ∨ tq = 0) ∧
      (Int.gcd n a : Int) ≡ tf * a [ZMOD n] := by
  induction fuel generalizing r r_prime t t_prime sg with
  | zero => omega
  | succ fuel ih =>
    unfold mod_inverse_loop
    by_cases h0 : r_prime = 0
    · subst h0
      simp only [ne_eq, not_true_eq_false, if_false]
      have hgr : (Int.gcd n a : Int) = r := by
        rw [← hg]; simp; exact hr
      refine ⟨t, sg, -t_prime, ?_, hsg, ht, ?_, ?_, ?_⟩
      · rw [hgr]
      · rw [hgr]; linarith
      · rw [hgr]; rcases hJ with h | h
        · left; exact h
        · right; simp [h]
      · rw [hgr]; exact hc
    · simp only [ne_eq, h0, not_false_eq_true, if_true]
      have hpos : 0 < r_prime := by omega
      rw [Int.fdiv_eq_ediv _ hr']
      have hmod : r - r / r_prime * r_prime = r % r_prime := by
        rw [Int.emod_def]; ring
      have hq : 0 ≤ r / r_prime := Int.ediv_nonneg hr hr'
      have h1 : 0 ≤ r % r_prime := Int.emod_nonneg _ h0
      have h2 : r % r_prime < r_prime := Int.emod_lt_of_pos _ hpos
      rw [hmod]
      have hdet' : r % r_prime * t_prime - r_prime * (t - r / r_prime * t_prime) = (-sg) * n := by
        rw [← hmod]; linear_combination -hdet
      have hqt : r / r_prime * (sg * t_prime) ≤ 0 := mul_nonpos_of_nonneg_of_nonpos hq ht'
      apply ih r_prime (r % r_prime) t_prime (t - r / r_prime * t_prime) (-sg) hr' h1 (by omega)
        (by omega) hdet'
      · linarith
      · have : -sg * (t - r / r_prime * t_prime) = -(sg * t) + r / r_prime * (sg * t_prime) := by
          ring
        rw [this]; linarith
      · left; omega
      · by_cases hrr : r_prime ≤ r
        · left
          have hA : r * (-(sg * t_prime)) = n - r_prime * (sg * t) := by
            have hs2 : sg * sg = 1 := by rcases hsg with h | h <;> subst h <;> norm_num
            have := congrArg (fun x => sg * x) hdet
            simp only at this
            have e1 : sg * (sg * n) = n := by rw [← mul_assoc, hs2, one_mul]
            rw [e1] at this
            linear_combination this
          have hB : 0 ≤ r_prime * (sg * t) := mul_nonneg hr' ht
          have hC : (r - r_prime) * (-(sg * t_prime)) ≥ 0 :=
            mul_nonneg (by omega) (by omega)
          nlinarith
        · right
          have ht0 : t = 0 := by
            rcases hle with h | h
            · exact absurd h hrr
            · exact h
          have : r / r_prime = 0 := Int.ediv_eq_zero_of_lt hr (by omega)
          rw [this, ht0]; ring
      · exact hc'
      · have : r % r_prime = r - r / r_prime * r_prime := hmod.symm
        rw [this]
        calc r - r / r_prime * r_prime ≡ t * a - r / r_prime * (t_prime * a) [ZMOD n] :=
              Int.ModEq.sub hc (Int.ModEq.mul (Int.ModEq.refl _) hc')
          _ = (t - r / r_prime * t_prime) * a := by ring
      · rw [int_gcd_emod r r_prime hr hr', hg]

theorem mod_inverse_run (a n : Int) (hn : 1 < n) (ha : 0 ≤ a) :
    ∃ tf sf tq, mod_inverse_loop (a.natAbs + 1) n a 0 1 = some ((Int.gcd n a : Int), tf) ∧
      (sf = 1 ∨ sf = -1) ∧ 0 ≤ sf * tf ∧ (Int.gcd n a : Int) * tq = sf * n ∧
      (sf * tf * (Int.gcd n a : Int) ≤ n ∨ tq = 0) ∧
      (Int.gcd n a : Int) ≡ tf * a [ZMOD n] := by
  apply mod_inverse_loop_spec a n (a.natAbs + 1) n a 0 1 (-1) (by omega) ha (by omega)
    (Or.inr rfl) (by ring) (by norm_num) (by norm_num) (Or.inr rfl) (Or.inl (by simp; omega))
  · simp [Int.ModEq]
  · simp
  · rfl

theorem not_modEq_zero_one (n : Int) (hn : 1 < n) (x : Int) (h : 1 ≡ x * n [ZMOD n]) : False := by
  have h1 : (1 : Int) % n = 1 := Int.emod_eq_of_lt (by omega) hn
  have h2 : (x * n) % n = 0 := Int.mul_emod_left x n
  unfold Int.ModEq at h
  omega

theorem mod_inverse_coprime (a n : Int) (hn : 1 < n) (ha : 0 ≤ a) (hg : Int.gcd a n = 1) :
    ∃ i, mod_inverse a n = some i ∧ 0 < i ∧ i < n ∧ (a * i) % n = 1 := by
  obtain ⟨tf, sf, tq, hrun, hsf, htf, htq, hJ, hc⟩ := mod_inverse_run a n hn ha
  have hg' : Int.gcd n a = 1 := by rw [Int.gcd_comm]; exact hg
  rw [hg'] at hrun htq hJ hc
  simp only [Nat.cast_one, one_mul, mul_one] at htq hJ hc
  have h1 : (1 : Int) % n = 1 := Int.emod_eq_of_lt (by omega) hn
  have hb : sf * tf ≤ n := by
    rcases hJ with h | h
    · exact h
    · exfalso; rw [h] at htq
      rcases hsf with h | h <;> subst h <;> omega
  have hne0 : tf ≠ 0 := by
    intro h; subst h
    exact not_modEq_zero_one n hn 0 (by simpa using hc)
  have hmul : ∀ x : Int, x ≡ tf [ZMOD n] → (a * x) % n = 1 := by
    intro x hx
    have : a * x ≡ 1 [ZMOD n] := by
      calc a * x ≡ a * tf [ZMOD n] := Int.ModEq.mul (Int.ModEq.refl _) hx
        _ = tf * a := by ring
        _ ≡ 1 [ZMOD n] := hc.symm
    unfold Int.ModEq at this
    rw [this, h1]
  unfold mod_inverse
  rw [hrun]
  simp only [lt_self_iff_false, if_false]
  rcases hsf with h | h <;> subst h
  · have hpos : 0 < tf := by omega
    have hne : tf ≠ n := by
      intro h; subst h
      exact not_modEq_zero_one tf hn a (by rw [mul_comm]; exact hc)
    have : ¬ tf < 0 := by omega
    simp only [this, if_false]
    exact ⟨tf, rfl, hpos, by omega, hmul tf (Int.ModEq.refl _)⟩
  · have hneg : tf < 0 := by omega
    have hne : tf ≠ -n := by
      intro h; subst h
      exact not_modEq_zero_one n hn (-a) (by
        have : -a * n = -n * a := by ring
        rw [this]; exact hc)
    simp only [hneg, if_true]
    refine ⟨tf + n, rfl, by omega, by omega, hmul _ ?_⟩
    unfold Int.ModEq
    simp

theorem mod_inverse_not_coprime (a n : Int) (hn : 1 < n) (ha : 0 ≤ a) (hg : Int.gcd a n ≠ 1) :
    mod_inverse a n = some 0 := by
  obtain ⟨tf, sf, tq, hrun, -⟩ := mod_inverse_run a n hn ha
  have hg' : Int.gcd n a ≠ 1 := by rw [Int.gcd_comm]; exact hg
  have hg0 : Int.gcd n a ≠ 0 := by
    intro h
    rw [Int.gcd_eq_zero_iff] at h
    omega
  have : (1 : Int) < (Int.gcd n a : Int) := by omega
  unfold mod_inverse
  rw [hrun]
  simp only [this, if_true]

/-! ## Correctness of the RSA exponent pair -/

theorem fermat_lift (p : Nat) (hp : p.Prime) (k : Nat) (hk : k % (p - 1) = 1 % (p - 1)) (hk0 : 0 < k)
    (m : Int) : m ^ k ≡ m [ZMOD (p : Int)] := by
  haveI : Fact p.Prime := ⟨hp⟩
  rw [← ZMod.intCast_eq_intCast_iff]
  push_cast
  by_cases h0 : (m : ZMod p) = 0
  · rw [h0, zero_pow (by omega)]
  · have hf := ZMod.pow_card_sub_one_eq_one h0
    have hp2 := hp.two_le
    by_cases hp2' : p = 2
    · subst hp2'
      obtain ⟨j, rfl⟩ : ∃ j, k = j + 1 := ⟨k - 1, by omega⟩
      simp at hf
      rw [hf]; simp
    · have h1 : 1 % (p - 1) = 1 := Nat.mod_eq_of_lt (by omega)
      rw [h1] at hk
      have : k = 1 + (p - 1) * (k / (p - 1)) := by
        have := Nat.mod_add_div k (p - 1)
        omega
      rw [this, pow_add, pow_mul, hf, one_pow, pow_one, mul_one]

theorem rsa_core (p q : Nat) (hp : p.Prime) (hq : q.Prime) (hpq : p ≠ q) (k : Nat)
    (hk : k % ((p - 1) * (q - 1)) = 1) (m : Int) :
    m ^ k ≡ m [ZMOD ((p : Int) * (q : Int))] := by
  have hk0 : 0 < k := by
    rcases Nat.eq_zero_or_pos k with h | h
    · subst h; simp at hk
    · exact h
  have hmod : ∀ a b : Nat, k % (a * b) = 1 → k % a = 1 % a := by
    intro a b h
    have : k % (a * b) % a = k % a := Nat.mod_mul_right_mod k a b
    rw [← this, h]
  have h1 := fermat_lift p hp k (hmod _ _ hk) hk0 m
  have h2 := fermat_lift q hq k (hmod _ _ (by rw [mul_comm]; exact hk)) hk0 m
  have hco : Nat.Coprime p q := (Nat.coprime_primes hp hq).2 hpq
  rw [← Int.modEq_and_modEq_iff_modEq_mul]
  · exact ⟨h1, h2⟩
  · simpa using hco


theorem exponent_product (p q : Nat) (hp : p.Prime) (hq : q.Prime) (hpq : p ≠ q) (e d : Int)
    (he : 0 ≤ e) (hd : 0 ≤ d)
    (hed : e * d ≡ 1 [ZMOD ((p : Int) - 1) * ((q : Int) - 1)]) :
    (e.toNat * d.toNat) % ((p - 1) * (q - 1)) = 1 := by
  have hp2 := hp.two_le
  have hq2 := hq.two_le
  have hphi : 2 ≤ (p - 1) * (q - 1) := by
    rcases Nat.lt_or_ge p 3 with h | h
    · have hp' : p = 2 := by omega
      have hq3 : 3 ≤ q := by omega
      subst hp'
      simp; omega
    · have : 1 * 2 ≤ (q - 1) * (p - 1) := Nat.mul_le_mul (by omega) (by omega)
      rw [mul_comm]; omega
  have hcast : (((p - 1) * (q - 1) : Nat) : Int) = ((p : Int) - 1) * ((q : Int) - 1) := by
    push_cast [Nat.cast_sub (by omega : 1 ≤ p), Nat.cast_sub (by omega : 1 ≤ q)]
    ring
  have hprod : ((e.toNat * d.toNat : Nat) : Int) = e * d := by
    push_cast [Int.toNat_of_nonneg he, Int.toNat_of_nonneg hd]
    ring
  rw [← hcast, ← hprod] at hed
  have h1 : ((1 : Nat) : Int) = 1 := rfl
  rw [← h1, Int.natCast_modEq_iff] at hed
  unfold Nat.ModEq at hed
  rw [hed]
  exact Nat.mod_eq_of_lt (by omega)

theorem rsa_round_trip (p q : Nat) (n e d m : Int) (hp : p.Prime) (hq : q.Prime) (hpq : p ≠ q)
    (hn : n = (p : Int) * (q : Int)) (he : 0 ≤ e) (hd : 0 ≤ d)
    (hed : e * d ≡ 1 [ZMOD ((p : Int) - 1) * ((q : Int) - 1)])
    (hm0 : 0 ≤ m) (hmn : m < n) :
    pow_mod m e n = some (m ^ e.toNat % n) ∧ pow_mod (m ^ e.toNat % n) d n = some m := by
  have hp2 := hp.two_le
  have hq2 := hq.two_le
  have hn1 : 1 < n := by
    rw [hn]
    have : (2 : Int) * 2 ≤ (p : Int) * (q : Int) :=
      mul_le_mul (by exact_mod_cast hp2) (by exact_mod_cast hq2) (by norm_num) (by omega)
    omega
  refine ⟨pow_mod_eq m e n he hn1, ?_⟩
  rw [pow_mod_eq _ d n hd hn1]
  congr 1
  have hk := exponent_product p q hp hq hpq e d he hd hed
  have hcore := rsa_core p q hp hq hpq _ hk m
  rw [← hn] at hcore
  have : (m ^ e.toNat % n) ^ d.toNat ≡ m [ZMOD n] := by
    calc (m ^ e.toNat % n) ^ d.toNat ≡ (m ^ e.toNat) ^ d.toNat [ZMOD n] :=
          (Int.mod_modEq _ _).pow _
      _ = m ^ (e.toNat * d.toNat) := by rw [pow_mul]
      _ ≡ m [ZMOD n] := hcore
  unfold Int.ModEq at this
  rw [this]
  exact Int.emod_eq_of_lt hm0 hmn

/-! ## Claims on the number theory engine -/

/-- C2: for `n = p * q` with distinct primes `p`, `q`, exponents `e, d ≥ 0` with
`e * d ≡ 1 (mod (p - 1) * (q - 1))` and a message `0 ≤ m < n`, `rsa_encrypt` returns a
ciphertext and `rsa_decrypt` of that ciphertext returns `m`. -/
theorem rsa_decrypt_encrypt (p q : Nat) (n e d m : Int) (hp : p.Prime) (hq : q.Prime)
    (hpq : p ≠ q) (hn : n = (p : Int) * (q : Int)) (he : 0 ≤ e) (hd : 0 ≤ d)
    (hed : e * d ≡ 1 [ZMOD ((p : Int) - 1) * ((q : Int) - 1)])
    (hm0 : 0 ≤ m) (hmn : m < n) :
    ∃ c, rsa_encrypt m e n = some c ∧ rsa_decrypt c d n = some m :=
  ⟨m ^ e.toNat % n, rsa_round_trip p q n e d m hp hq hpq hn he hd hed hm0 hmn⟩

/-- Witness for C2: the key `n = 3 * 11`, `e = 3`, `d = 7` and the message `m = 5`. -/
theorem rsa_decrypt_encrypt_witness :
    ∃ c, rsa_encrypt 5 3 33 = some c ∧ rsa_decrypt c 7 33 = some 5 :=
  rsa_decrypt_encrypt 3 11 33 3 7 5 (by norm_num) (by norm_num) (by decide) (by norm_num)
    (by decide) (by decide) (by decide) (by decide) (by decide)

/-- C3, as stated, fails: with exponent 0 and modulus 1 the loop body never runs and
`pow_mod` returns the initial accumulator 1, while `base ^ 0 mod 1` is 0. -/
theorem pow_mod_modulus_one_counterexample :
    pow_mod 5 0 1 = some 1 ∧ (5 : Int) ^ (0 : Int).toNat % 1 = 0 ∧
      ¬ (∀ base exponent modulus : Int, 0 ≤ exponent → 0 < modulus →
        pow_mod base exponent modulus = some (base ^ exponent.toNat % modulus)) := by
  refine ⟨by decide, by decide, fun h => ?_⟩
  have h1 := h 5 0 1 (by decide) (by decide)
  revert h1
  decide

/-- C3, amended: for every base, every exponent `≥ 0` and every modulus `> 0`, provided the
exponent is positive or the modulus exceeds 1, `pow_mod` returns the non-negative residue of
`base ^ exponent` modulo the modulus. -/
theorem pow_mod_correct (base exponent modulus : Int) (he : 0 ≤ exponent) (hm : 0 < modulus)
    (h : 0 < exponent ∨ 1 < modulus) :
    pow_mod base exponent modulus = some (base ^ exponent.toNat % modulus) := by
  rcases h with h | h
  · exact pow_mod_pos base exponent modulus h hm
  · exact pow_mod_eq base exponent modulus he h

/-- Witness for the amended C3: a negative base, exponent 5, modulus 7. -/
theorem pow_mod_correct_witness :
    pow_mod (-3) 5 7 = some ((-3 : Int) ^ (5 : Int).toNat % 7) :=
  pow_mod_correct (-3) 5 7 (by decide) (by decide) (Or.inl (by decide))

/-- C5: for a modulus `n > 1` and `a ≥ 0` coprime to `n` (also when `a ≥ n`), `mod_inverse`
returns `i` with `0 ≤ i < n` and `(a * i) mod n = 1`. -/
theorem mod_inverse_correct (a n : Int) (hn : 1 < n) (ha : 0 ≤ a) (hg : Int.gcd a n = 1) :
    ∃ i, mod_inverse a n = some i ∧ 0 ≤ i ∧ i < n ∧ (a * i) % n = 1 := by
  obtain ⟨i, h1, h2, h3, h4⟩ := mod_inverse_coprime a n hn ha hg
  exact ⟨i, h1, le_of_lt h2, h3, h4⟩

/-- Witness for C5: `a = 13` exceeds the modulus `n = 10`. -/
theorem mod_inverse_correct_witness :
    ∃ i, mod_inverse 13 10 = some i ∧ 0 ≤ i ∧ i < 10 ∧ (13 * i) % 10 = 1 :=
  mod_inverse_correct 13 10 (by decide) (by decide) (by decide)

/-- C6: for a modulus `n > 1` and `a ≥ 0`, `mod_inverse` returns a value, and that value is
0 exactly when `a` and `n` are not coprime. -/
theorem mod_inverse_zero_iff (a n : Int) (hn : 1 < n) (ha : 0 ≤ a) :
    (∃ i, mod_inverse a n = some i) ∧ (mod_inverse a n = some 0 ↔ Int.gcd a n ≠ 1) := by
  by_cases hg : Int.gcd a n = 1
  · obtain ⟨i, h1, h2, -⟩ := mod_inverse_coprime a n hn ha hg
    refine ⟨⟨i, h1⟩, ?_⟩
    rw [h1]
    constructor
    · intro h
      have : i = 0 := Option.some.inj h
      omega
    · intro h
      exact absurd hg h
  · have h := mod_inverse_not_coprime a n hn ha hg
    exact ⟨⟨0, h⟩, fun _ => hg, fun _ => h⟩

/-- Witness for C6: `a = 4` and `n = 10` share the factor 2. -/
theorem mod_inverse_zero_iff_witness :
    (∃ i, mod_inverse 4 10 = some i) ∧ (mod_inverse 4 10 = some 0 ↔ Int.gcd 4 10 ≠ 1) :=
  mod_inverse_zero_iff 4 10 (by decide) (by decide)

/-- C10: for non-negative `a` and `b`, `gcd` returns the greatest common divisor: a
non-negative common divisor of `a` and `b` that every common divisor divides; it is 0 for
`a = b = 0`. -/
theorem gcd_correct (a b : Int) (ha : 0 ≤ a) (hb : 0 ≤ b) :
    ∃ g, gcd a b = some g ∧ 0 ≤ g ∧ g ∣ a ∧ g ∣ b ∧ (∀ c : Int, c ∣ a → c ∣ b → c ∣ g) ∧
      g = (Int.gcd a b : Int) ∧ (a = 0 → b = 0 → g = 0) := by
  refine ⟨(Int.gcd a b : Int), gcd_nonneg_eq a b ha hb, by positivity, Int.gcd_dvd_left,
    Int.gcd_dvd_right, fun c h1 h2 => Int.dvd_gcd h1 h2, rfl, ?_⟩
  intro h1 h2
  subst h1 h2
  rfl

/-- Witness for C10: `gcd(12, 18)`. -/
theorem gcd_correct_witness :
    ∃ g, gcd 12 18 = some g ∧ 0 ≤ g ∧ g ∣ (12 : Int) ∧ g ∣ (18 : Int) ∧
      (∀ c : Int, c ∣ 12 → c ∣ 18 → c ∣ g) ∧ g = (Int.gcd 12 18 : Int) ∧
      ((12 : Int) = 0 → (18 : Int) = 0 → g = 0) :=
  gcd_correct 12 18 (by decide) (by decide)

/-! ## Miller-Rabin on a prime -/

theorem is_prime_factor_loop_spec (fuel : Nat) (s r : Int) (hr : 0 < r) (hf : r.toNat < fuel) :
    ∃ (k : Nat) (r1 : Int), is_prime_factor_loop fuel s r = some (s + k, r1) ∧
      r = 2 ^ k * r1 ∧ r1 % 2 = 1 ∧ 0 < r1 := by
  induction fuel generalizing s r with
  | zero => omega
  | succ fuel ih =>
    unfold is_prime_factor_loop
    rw [Int.fmod_eq_emod _ (by norm_num), fdiv_two]
    by_cases h : r % 2 = 0
    · simp only [h, if_true]
      obtain ⟨k, r1, h1, h2, h3, h4⟩ := ih (s + 1) (r / 2) (by omega) (by omega)
      refine ⟨k + 1, r1, ?_, ?_, h3, h4⟩
      · rw [h1]; push_cast; congr 2; ring
      · rw [pow_succ, mul_assoc, mul_comm 2, ← mul_assoc, ← h2]; omega
    · simp only [h, if_false]
      exact ⟨0, r, by simp, by simp, by omega, hr⟩

theorem sq_modEq_one (P : Nat) (hP : P.Prime) (y : Int) (hy0 : 0 ≤ y) (hy : y < P)
    (h : y ^ 2 ≡ 1 [ZMOD (P : Int)]) : y = 1 ∨ y = (P : Int) - 1 := by
  have hP2 := hP.two_le
  have hd : (P : Int) ∣ (y - 1) * (y + 1) := by
    have := (Int.modEq_iff_dvd.1 h.symm)
    have e : y ^ 2 - 1 = (y - 1) * (y + 1) := by ring
    rwa [e] at this
  have hprime : Prime (P : Int) := Nat.prime_iff_prime_int.1 hP
  rcases hprime.dvd_or_dvd hd with h1 | h1
  · left
    obtain ⟨c, hc⟩ := h1
    have : c = 0 := by
      by_contra hne
      rcases lt_or_gt_of_ne hne with h | h
      · have : (P : Int) * c ≤ (P : Int) * (-1) := mul_le_mul_of_nonneg_left (by omega) (by omega)
        omega
      · have : (P : Int) * 1 ≤ (P : Int) * c := mul_le_mul_of_nonneg_left (by omega) (by omega)
        omega
    subst this
    omega
  · right
    obtain ⟨c, hc⟩ := h1
    have : c = 1 := by
      by_contra hne
      rcases lt_or_gt_of_ne hne with h | h
      · have : (P : Int) * c ≤ (P : Int) * 0 := mul_le_mul_of_nonneg_left (by omega) (by omega)
        omega
      · have : (P : Int) * 2 ≤ (P : Int) * c := mul_le_mul_of_nonneg_left (by omega) (by omega)
        omega
    subst this
    omega

theorem is_prime_square_loop_prime (P : Nat) (hP : P.Prime) (c : Nat) :
    ∀ (fuel : Nat) (j s_minus_one y : Int), c < fuel → j + c = s_minus_one + 1 →
      0 ≤ y → y < P → y ≠ 1 → y ^ 2 ^ (c + 1) ≡ 1 [ZMOD (P : Int)] →
      is_prime_square_loop fuel j s_minus_one y P = some (some ((P : Int) - 1)) := by
  have hP2 := hP.two_le
  induction c with
  | zero =>
    intro fuel j sm1 y hf hj hy0 hy hy1 hpow
    obtain ⟨f, rfl⟩ : ∃ f, fuel = f + 1 := ⟨fuel - 1, by omega⟩
    unfold is_prime_square_loop
    simp only [zero_add, pow_one] at hpow
    rcases sq_modEq_one P hP y hy0 hy hpow with h | h
    · exact absurd h hy1
    · simp [h]
  | succ c ih =>
    intro fuel j sm1 y hf hj hy0 hy hy1 hpow
    obtain ⟨f, rfl⟩ : ∃ f, fuel = f + 1 := ⟨fuel - 1, by omega⟩
    unfold is_prime_square_loop
    by_cases hyP : y = (P : Int) - 1
    · simp [hyP]
    · have hjle : j ≤ sm1 := by push_cast at hj; omega
      simp only [hjle, ne_eq, hyP, not_false_eq_true, and_self, if_true]
      rw [pow_mod_eq y 2 P (by norm_num) (by omega)]
      have h2 : (2 : Int).toNat = 2 := rfl
      simp only [h2]
      have hy1' : y ^ 2 % (P : Int) ≠ 1 := by
        intro h
        have : y ^ 2 ≡ 1 [ZMOD (P : Int)] := by
          unfold Int.ModEq
          rw [h]
          exact (Int.emod_eq_of_lt (by norm_num) (by omega)).symm
        rcases sq_modEq_one P hP y hy0 hy this with h | h
        · exact hy1 h
        · exact hyP h
      simp only [hy1', if_false]
      apply ih f (j + 1) sm1 (y ^ 2 % (P : Int)) (by omega) (by push_cast at hj ⊢; omega)
        (Int.emod_nonneg _ (by omega)) (Int.emod_lt_of_pos _ (by omega)) hy1'
      calc (y ^ 2 % (P : Int)) ^ 2 ^ (c + 1) ≡ (y ^ 2) ^ 2 ^ (c + 1) [ZMOD (P : Int)] :=
            (Int.mod_modEq _ _).pow _
        _ = y ^ 2 ^ (c + 1 + 1) := by rw [← pow_mul, ← pow_succ']
        _ ≡ 1 [ZMOD (P : Int)] := hpow

theorem fermat_int (P : Nat) (hP : P.Prime) (a : Int) (ha0 : 0 < a) (ha : a < P) :
    a ^ (P - 1) ≡ 1 [ZMOD (P : Int)] := by
  haveI : Fact P.Prime := ⟨hP⟩
  rw [← ZMod.intCast_eq_intCast_iff]
  push_cast
  apply ZMod.pow_card_sub_one_eq_one
  intro h
  rw [ZMod.intCast_zmod_eq_zero_iff_dvd] at h
  have := Int.le_of_dvd ha0 h
  omega

theorem is_prime_witness_loop_prime (rand : Nat → Nat) (P : Nat) (hP : P.Prime) (h5 : 5 ≤ P)
    (k : Nat) (r : Int) (hr : 0 < r) (hfac : (P : Int) - 1 = 2 ^ k * r) (iters : Nat) :
    ∀ pos, is_prime_witness_loop rand P k r iters pos = some (true, pos + iters) := by
  induction iters with
  | zero => intro pos; rfl
  | succ i ih =>
    intro pos
    unfold is_prime_witness_loop
    have hnat : ((P : Int) - 3).natAbs = P - 3 := by omega
    have hlt : rand pos % (P - 3) < P - 3 := Nat.mod_lt _ (by omega)
    have ha0 : 0 < mpz_urandomm rand pos ((P : Int) - 3) + 2 := by
      unfold mpz_urandomm; omega
    have ha : mpz_urandomm rand pos ((P : Int) - 3) + 2 < P := by
      unfold mpz_urandomm; rw [hnat]; omega
    generalize mpz_urandomm rand pos ((P : Int) - 3) + 2 = a at ha0 ha
    simp only []
    rw [pow_mod_eq a r P (le_of_lt hr) (by omega)]
    simp only []
    have hnext : is_prime_witness_loop rand P k r i (pos + 1) = some (true, pos + (i + 1)) := by
      rw [ih (pos + 1)]; congr 2; omega
    by_cases hy : a ^ r.toNat % (P : Int) ≠ 1 ∧ a ^ r.toNat % (P : Int) ≠ (P : Int) - 1
    · have hk1 : 1 ≤ k := by
        rcases Nat.eq_zero_or_pos k with h | h
        · exfalso
          subst h
          simp only [pow_zero, one_mul] at hfac
          apply hy.1
          have hf := fermat_int P hP a ha0 ha
          have e : r.toNat = P - 1 := by omega
          rw [e]
          unfold Int.ModEq at hf
          rw [hf]
          exact Int.emod_eq_of_lt (by norm_num) (by omega)
        · exact h
      have hsq : is_prime_square_loop ((k : Int).toNat + 1) 1 ((k : Int) - 1)
          (a ^ r.toNat % (P : Int)) P = some (some ((P : Int) - 1)) := by
        apply is_prime_square_loop_prime P hP (k - 1) _ _ _ _ (by omega) (by omega)
          (Int.emod_nonneg _ (by omega)) (Int.emod_lt_of_pos _ (by omega)) hy.1
        have e1 : k - 1 + 1 = k := by omega
        rw [e1]
        calc (a ^ r.toNat % (P : Int)) ^ 2 ^ k ≡ (a ^ r.toNat) ^ 2 ^ k [ZMOD (P : Int)] :=
              (Int.mod_modEq _ _).pow _
          _ = a ^ (P - 1) := by
              rw [← pow_mul]
              congr 1
              have : ((r.toNat * 2 ^ k : Nat) : Int) = ((P - 1 : Nat) : Int) := by
                push_cast [Int.toNat_of_nonneg (le_of_lt hr)]
                rw [Nat.cast_sub (by omega)]
                push_cast
                rw [hfac]; ring
              exact_mod_cast this
          _ ≡ 1 [ZMOD (P : Int)] := fermat_int P hP a ha0 ha
      rw [if_pos hy, hsq]
      simp only [ne_eq, not_true_eq_false, if_false]
      exact hnext
    · rw [if_neg hy]
      exact hnext

theorem is_prime_prime (rand : Nat → Nat) (P : Nat) (hP : P.Prime) (iters pos : Nat) :
    ∃ pos1, is_prime rand (P : Int) iters pos = some (true, pos1) := by
  have hP2 := hP.two_le
  unfold is_prime
  have h1 : ¬ ((P : Int) < 2) := by omega
  rw [if_neg h1, Int.fmod_eq_emod _ (by norm_num)]
  have hodd : ¬ ((P : Int) ≠ 2 ∧ (P : Int) % 2 = 0) := by
    rintro ⟨hne, hev⟩
    have : 2 ∣ P := by omega
    rcases (Nat.dvd_prime hP).1 this with h | h <;> omega
  rw [if_neg hodd]
  by_cases h23 : (P : Int) = 2 ∨ (P : Int) = 3
  · rw [if_pos h23]; exact ⟨pos, rfl⟩
  · rw [if_neg h23]
    have h5 : 5 ≤ P := by omega
    obtain ⟨k, r, hfl, hfac, -, hr⟩ :=
      is_prime_factor_loop_spec (P : Int).toNat 0 ((P : Int) - 1) (by omega) (by omega)
    rw [hfl]
    simp only [zero_add]
    exact ⟨pos + iters, is_prime_witness_loop_prime rand P hP h5 k r hr hfac iters pos⟩

theorem witness_stream_covers (n a : Int) (pos : Nat) (h2 : 2 ≤ a) (ha : a ≤ n - 2) :
    mpz_urandomm (fun _ => (a - 2).toNat) pos (n - 3) + 2 = a := by
  unfold mpz_urandomm
  have hlt : (a - 2).toNat < (n - 3).natAbs := by omega
  rw [Nat.mod_eq_of_lt hlt]
  omega

/-- C4: a prime is never declared composite.  For every prime `P`, every iteration count and
every random stream (hence every sequence of witnesses in `[2, P - 2]`, each of which is
drawn from some stream by `witness_stream_covers`), `is_prime` returns true. -/
theorem is_prime_accepts_prime (rand : Nat → Nat) (P : Nat) (hP : P.Prime) (iters pos : Nat) :
    ∃ pos1, is_prime rand (P : Int) iters pos = some (true, pos1) :=
  is_prime_prime rand P hP iters pos

/-- Witness for C4: the prime 13 with three rounds. -/
theorem is_prime_accepts_prime_witness :
    ∃ pos1, is_prime (fun i => 7 * i + 3) ((13 : Nat) : Int) 3 0 = some (true, pos1) :=
  is_prime_accepts_prime (fun i => 7 * i + 3) 13 (by norm_num) 3 0


/-! ## Digits, bit length and key generation -/

theorem digits_be_eq (b : Nat) (hb : 1 < b) (fuel x : Nat) (acc : List Nat) (hx : x ≤ fuel) :
    digits_be b fuel x acc = (Nat.digits b x).reverse ++ acc := by
  induction fuel generalizing x acc with
  | zero =>
    have : x = 0 := by omega
    subst this
    simp [digits_be]
  | succ fuel ih =>
    unfold digits_be
    by_cases h0 : x = 0
    · subst h0; simp
    · simp only [h0, if_false]
      have hlt : x / b < x := Nat.div_lt_self (by omega) hb
      rw [ih (x / b) _ (by omega)]
      conv_rhs => rw [Nat.digits_def' hb (Nat.pos_of_ne_zero h0)]
      simp

theorem sizeinbase2_of_pos (x : Nat) (hx : x ≠ 0) :
    mpz_sizeinbase2 (x : Int) = Nat.log 2 x + 1 := by
  unfold mpz_sizeinbase2
  have : (x : Int) ≠ 0 := by exact_mod_cast hx
  simp only [this, if_false, Int.natAbs_ofNat]
  rw [digits_be_eq 2 (by norm_num) x x [] le_rfl]
  simp [Nat.digits_len 2 x (by norm_num) hx]

theorem pow_le_of_sizeinbase2 (x : Nat) (bits : Nat) (hx : x ≠ 0)
    (h : bits + 1 ≤ mpz_sizeinbase2 (x : Int)) : 2 ^ bits ≤ x := by
  rw [sizeinbase2_of_pos x hx] at h
  calc 2 ^ bits ≤ 2 ^ Nat.log 2 x := Nat.pow_le_pow_right (by norm_num) (by omega)
    _ ≤ x := Nat.pow_log_le_self 2 hx

theorem pow_sizeinbase2_le (x : Nat) (hx : x ≠ 0) : 2 ^ (mpz_sizeinbase2 (x : Int) - 1) ≤ x := by
  rw [sizeinbase2_of_pos x hx]
  exact Nat.pow_log_le_self 2 hx

theorem is_prime_true (rand : Nat → Nat) (n : Int) (iters pos pos1 : Nat)
    (h : is_prime rand n iters pos = some (true, pos1)) : 2 ≤ n ∧ (n = 2 ∨ n % 2 = 1) := by
  unfold is_prime at h
  rw [Int.fmod_eq_emod _ (by norm_num)] at h
  by_cases h1 : n < 2
  · simp [h1] at h
  · rw [if_neg h1] at h
    by_cases h2 : n ≠ 2 ∧ n % 2 = 0
    · simp [h2] at h
    · refine ⟨by omega, ?_⟩
      by_cases h3 : n = 2
      · exact Or.inl h3
      · right
        have : ¬ n % 2 = 0 := fun h0 => h2 ⟨h3, h0⟩
        omega

theorem make_prime_spec (rand : Nat → Nat) (bits iters : Nat) (hbits : bits + 1 < 2 ^ 64)
    (fuel : Nat) : ∀ (pos : Nat) (p : Int) (pos1 : Nat),
    make_prime rand bits iters fuel pos = some (p, pos1) →
      ∃ x : Nat, p = (x : Int) ∧ 2 ≤ x ∧ (x = 2 ∨ x % 2 = 1) ∧ 2 ^ bits ≤ x ∧
        x < 2 ^ (bits + 1) := by
  induction fuel with
  | zero => intro pos p pos1 h; simp [make_prime] at h
  | succ fuel ih =>
    intro pos p pos1 h
    unfold make_prime at h
    simp only [Nat.mod_eq_of_lt hbits] at h
    cases hip : is_prime rand (mpz_urandomb rand pos (bits + 1)) iters (pos + 1) with
    | none => rw [hip] at h; simp at h
    | some res =>
      obtain ⟨b, pos2⟩ := res
      rw [hip] at h
      simp only [] at h
      by_cases hc : b = false ∨ mpz_sizeinbase2 (mpz_urandomb rand pos (bits + 1)) < bits + 1
      · rw [if_pos hc] at h
        exact ih _ _ _ h
      · rw [if_neg hc] at h
        simp only [Option.some.injEq, Prod.mk.injEq] at h
        have hb : b = true := by
          cases b
          · exact absurd (Or.inl rfl) hc
          · rfl
        subst hb
        have hsz : bits + 1 ≤ mpz_sizeinbase2 (mpz_urandomb rand pos (bits + 1)) := by
          by_contra hlt
          exact hc (Or.inr (by omega))
        obtain ⟨h2, hodd⟩ := is_prime_true _ _ _ _ _ hip
        unfold mpz_urandomb at h2 hodd hsz h
        refine ⟨rand pos % 2 ^ (bits + 1), h.1.symm, by omega, by omega, ?_, ?_⟩
        · exact pow_le_of_sizeinbase2 _ bits (by omega) hsz
        · exact Nat.mod_lt _ (by positivity)

theorem rsa_make_pub_e_loop_spec (rand : Nat → Nat) (nbits : Nat) (totient : Int)
    (ht : 0 ≤ totient) (fuel : Nat) : ∀ (pos : Nat) (e : Int) (pos1 : Nat),
    rsa_make_pub_e_loop rand nbits totient fuel pos = some (e, pos1) →
      0 ≤ e ∧ e < 2 ^ nbits ∧ Int.gcd e totient ≤ 1 := by
  induction fuel with
  | zero => intro pos e pos1 h; simp [rsa_make_pub_e_loop] at h
  | succ fuel ih =>
    intro pos e pos1 h
    unfold rsa_make_pub_e_loop at h
    have he0 : 0 ≤ mpz_urandomb rand pos nbits := by unfold mpz_urandomb; omega
    dsimp only at h
    rw [gcd_nonneg_eq _ _ he0 ht] at h
    dsimp only at h
    by_cases hc : (1 : Int) < (Int.gcd (mpz_urandomb rand pos nbits) totient : Int)
    · rw [if_pos hc] at h
      exact ih _ _ _ h
    · rw [if_neg hc] at h
      simp only [Option.some.injEq, Prod.mk.injEq] at h
      rw [← h.1]
      refine ⟨he0, ?_, by omega⟩
      unfold mpz_urandomb
      have : rand pos % 2 ^ nbits < 2 ^ nbits := Nat.mod_lt _ (by positivity)
      exact_mod_cast this

theorem bits_split_arith (nbits r : Nat) (hn : nbits < 18446744073709551616)
    (hlt : r < 2 * nbits % 18446744073709551616 / 4) :
    (r + nbits / 4) % 18446744073709551616 = r + nbits / 4 ∧
    (nbits + 18446744073709551616 - (r + nbits / 4)) % 18446744073709551616
      = nbits - (r + nbits / 4) ∧ r + nbits / 4 + 1 < 18446744073709551616 ∧
    r + nbits / 4 + 2 ≤ nbits ∧ (nbits < 4 → r = 0) := by
  have hr2 : r < nbits / 2 := by omega
  have h1 : r + nbits / 4 + 2 ≤ nbits := by omega
  refine ⟨?_, ?_, ?_, h1, ?_⟩ <;> omega

theorem bits_split (rnd nbits : Nat) (hn : nbits < 2 ^ 64) (hr : rsa_make_pub_range nbits ≠ 0) :
    rsa_make_pub_pbits rnd nbits + 1 < 2 ^ 64 ∧ rsa_make_pub_qbits rnd nbits + 1 < 2 ^ 64 ∧
      (nbits < 4 → rsa_make_pub_pbits rnd nbits = 0) ∧
      (4 ≤ nbits → nbits / 4 ≤ rsa_make_pub_pbits rnd nbits ∧
        2 ≤ rsa_make_pub_qbits rnd nbits ∧
        rsa_make_pub_pbits rnd nbits + rsa_make_pub_qbits rnd nbits = nbits) := by
  have hlt : rnd % rsa_make_pub_range nbits < rsa_make_pub_range nbits :=
    Nat.mod_lt _ (Nat.pos_of_ne_zero hr)
  unfold rsa_make_pub_qbits rsa_make_pub_pbits
  generalize rnd % rsa_make_pub_range nbits = r at hlt
  unfold rsa_make_pub_range at hlt
  norm_num at hn hlt ⊢
  obtain ⟨e1, e2, h3, h4, h5⟩ := bits_split_arith nbits r hn hlt
  rw [e1, e2]
  refine ⟨h3, by omega, fun h => ?_, fun h => by omega⟩
  have := h5 h
  omega

theorem rsa_make_pub_spec (rand : Nat → Nat) (rnd nbits iters fuel pos : Nat)
    (p q n e : Int) (pos1 : Nat) (hn : nbits < 2 ^ 64)
    (h : rsa_make_pub rand rnd nbits iters fuel pos = some (p, q, n, e, pos1)) :
    ∃ x y : Nat, p = (x : Int) ∧ q = (y : Int) ∧ n = p * q ∧
      2 ≤ x ∧ (x = 2 ∨ x % 2 = 1) ∧ 2 ^ rsa_make_pub_pbits rnd nbits ≤ x ∧
      x < 2 ^ (rsa_make_pub_pbits rnd nbits + 1) ∧
      4 ≤ y ∧ y % 2 = 1 ∧ 2 ^ rsa_make_pub_qbits rnd nbits ≤ y ∧
      y < 2 ^ (rsa_make_pub_qbits rnd nbits + 1) ∧
      0 ≤ e ∧ e < 2 ^ nbits ∧ Int.gcd e ((p - 1) * (q - 1)) ≤ 1 ∧
      4 ≤ nbits ∧ nbits / 4 ≤ rsa_make_pub_pbits rnd nbits ∧
      2 ≤ rsa_make_pub_qbits rnd nbits ∧
      rsa_make_pub_pbits rnd nbits + rsa_make_pub_qbits rnd nbits = nbits := by
  unfold rsa_make_pub at h
  by_cases hr : rsa_make_pub_range nbits = 0
  · simp [hr] at h
  · rw [if_neg hr] at h
    obtain ⟨hpb, hqb, hsmall, hbig⟩ := bits_split rnd nbits hn hr
    cases h1 : make_prime rand (rsa_make_pub_pbits rnd nbits) iters fuel pos with
    | none => rw [h1] at h; simp at h
    | some res1 =>
      obtain ⟨p1, pos2⟩ := res1
      rw [h1] at h
      dsimp only at h
      cases h2 : make_prime rand (rsa_make_pub_qbits rnd nbits) iters fuel pos2 with
      | none => rw [h2] at h; simp at h
      | some res2 =>
        obtain ⟨q1, pos3⟩ := res2
        rw [h2] at h
        dsimp only at h
        cases h3 : rsa_make_pub_e_loop rand nbits ((p1 - 1) * (q1 - 1)) fuel pos3 with
        | none => rw [h3] at h; simp at h
        | some res3 =>
          obtain ⟨e1, pos4⟩ := res3
          rw [h3] at h
          simp only [Option.some.injEq, Prod.mk.injEq] at h
          obtain ⟨rfl, rfl, rfl, rfl, rfl⟩ := h
          obtain ⟨x, hx, hx2, hxodd, hxlo, hxhi⟩ := make_prime_spec rand _ iters hpb fuel _ _ _ h1
          obtain ⟨y, hy, hy2, hyodd, hylo, hyhi⟩ := make_prime_spec rand _ iters hqb fuel _ _ _ h2
          have h4 : 4 ≤ nbits := by
            by_contra hlt
            have h0 := hsmall (by omega)
            rw [h0] at hxhi
            simp at hxhi
            omega
          obtain ⟨hp1, hq2, hsum⟩ := hbig h4
          have hy4 : 4 ≤ y := by
            calc 4 = 2 ^ 2 := by norm_num
              _ ≤ 2 ^ rsa_make_pub_qbits rnd nbits := Nat.pow_le_pow_right (by norm_num) hq2
              _ ≤ y := hylo
          have hphi : (0 : Int) ≤ (p1 - 1) * (q1 - 1) := by
            subst hx hy
            exact mul_nonneg (by omega) (by omega)
          obtain ⟨he0, hehi, heg⟩ := rsa_make_pub_e_loop_spec rand nbits _ hphi fuel _ _ _ h3
          exact ⟨x, y, hx, hy, rfl, hx2, hxodd, hxlo, hxhi, hy4, by omega, hylo, hyhi, he0, hehi,
            heg, h4, hp1, hq2, hsum⟩

theorem totient_ge (x y : Nat) (hx : 2 ≤ x) (hy : 4 ≤ y) :
    (3 : Int) ≤ ((x : Int) - 1) * ((y : Int) - 1) := by
  have : (1 : Int) * 3 ≤ ((x : Int) - 1) * ((y : Int) - 1) :=
    mul_le_mul (by omega) (by omega) (by norm_num) (by omega)
  omega

theorem rsa_make_pub_gcd (rand : Nat → Nat) (rnd nbits iters fuel pos : Nat)
    (p q n e : Int) (pos1 : Nat) (hn : nbits < 2 ^ 64)
    (h : rsa_make_pub rand rnd nbits iters fuel pos = some (p, q, n, e, pos1)) :
    3 ≤ (p - 1) * (q - 1) ∧ 1 ≤ e ∧ Int.gcd e ((p - 1) * (q - 1)) = 1 := by
  obtain ⟨x, y, hx, hy, -, hx2, -, -, -, hy4, -, -, -, he0, -, heg, -⟩ :=
    rsa_make_pub_spec rand rnd nbits iters fuel pos p q n e pos1 hn h
  have hphi : 3 ≤ (p - 1) * (q - 1) := by rw [hx, hy]; exact totient_ge x y hx2 hy4
  have hg0 : Int.gcd e ((p - 1) * (q - 1)) ≠ 0 := by
    intro h0
    rw [Int.gcd_eq_zero_iff] at h0
    omega
  refine ⟨hphi, ?_, by omega⟩
  by_contra hlt
  have : e = 0 := by omega
  subst this
  rw [Int.gcd_zero_left] at heg
  omega


/-! ## Claims on key generation -/

/-- C7: for every `(p, q, n, e)` returned by `rsa_make_pub`, whatever the random draws,
`rsa_make_priv(e, p, q)` returns a non-zero `d` with `(e * d) mod ((p - 1) * (q - 1)) = 1`;
the exponent loop only exits with `gcd(e, (p - 1) * (q - 1)) = 1`.  The bound `nbits ≥ 4` of
the claim is not needed as a hypothesis: no run with a smaller `nbits` returns. -/
theorem rsa_key_relation (rand : Nat → Nat) (rnd nbits iters fuel pos : Nat)
    (p q n e : Int) (pos1 : Nat) (hn : nbits < 2 ^ 64)
    (h : rsa_make_pub rand rnd nbits iters fuel pos = some (p, q, n, e, pos1)) :
    Int.gcd e ((p - 1) * (q - 1)) = 1 ∧
      ∃ d, rsa_make_priv e p q = some d ∧ d ≠ 0 ∧ (e * d) % ((p - 1) * (q - 1)) = 1 := by
  obtain ⟨hphi, he, hg⟩ := rsa_make_pub_gcd rand rnd nbits iters fuel pos p q n e pos1 hn h
  obtain ⟨d, hd, hd0, -, hed⟩ :=
    mod_inverse_coprime e ((p - 1) * (q - 1)) (by omega) (by omega) hg
  exact ⟨hg, d, hd, by omega, hed⟩

/-- Witness for C7: a run with `nbits = 4` that returns `p = 5`, `q = 7`, `e = 5`. -/
theorem rsa_key_relation_witness :
    Int.gcd 5 ((5 - 1) * (7 - 1)) = 1 ∧
      ∃ d, rsa_make_priv 5 5 7 = some d ∧ d ≠ 0 ∧ (5 * d) % ((5 - 1) * (7 - 1)) = 1 :=
  rsa_key_relation (fun i => [5, 0, 7, 0, 4, 5].getD i 0) 1 4 1 5 0 5 7 35 5 6 (by decide)
    (by decide)

/-- C8, as stated, fails twice.  The exponent loop accepts `e = 1` (first run: `p = 5`,
`q = 7`, `e = 1`), and for `nbits < 8` the prime `p` can be 2, in which case an accepted `e`
can exceed `(p - 1) * (q - 1)` (second run: `p = 2`, `q = 11`, `e = 13 > 10`). -/
theorem rsa_make_pub_exponent_counterexample :
    (rsa_make_pub (fun i => [5, 0, 7, 0, 1].getD i 0) 1 4 1 5 0 = some (5, 7, 35, 1, 5) ∧
      ¬ ((1 : Int) < 1)) ∧
    (rsa_make_pub (fun i => [2, 11, 0, 13].getD i 0) 0 4 1 5 0 = some (2, 11, 22, 13, 4) ∧
      ¬ ((13 : Int) < (2 - 1) * (11 - 1))) := by
  refine ⟨⟨?_, by decide⟩, ⟨?_, by decide⟩⟩ <;> decide

/-- C8, amended: for every `(p, q, n, e)` returned by `rsa_make_pub`, whatever the random
draws, `1 ≤ e < 2 ^ nbits`, and `e < (p - 1) * (q - 1)` whenever `p ≠ 2`, which is always
the case for `nbits ≥ 8`. -/
theorem rsa_make_pub_exponent_range (rand : Nat → Nat) (rnd nbits iters fuel pos : Nat)
    (p q n e : Int) (pos1 : Nat) (hn : nbits < 2 ^ 64)
    (h : rsa_make_pub rand rnd nbits iters fuel pos = some (p, q, n, e, pos1)) :
    1 ≤ e ∧ e < 2 ^ nbits ∧ (p ≠ 2 → e < (p - 1) * (q - 1)) ∧ (8 ≤ nbits → p ≠ 2) := by
  obtain ⟨-, he, -⟩ := rsa_make_pub_gcd rand rnd nbits iters fuel pos p q n e pos1 hn h
  obtain ⟨x, y, hx, hy, -, hx2, hxodd, hxlo, -, hy4, hyodd, hylo, -, -, hehi, -, h4, hpq, hq2,
    hsum⟩ := rsa_make_pub_spec rand rnd nbits iters fuel pos p q n e pos1 hn h
  have hp1 : 1 ≤ rsa_make_pub_pbits rnd nbits := by omega
  refine ⟨he, hehi, fun hp2 => ?_, fun h8 hp2 => ?_⟩
  · subst hx hy
    have hx' : x % 2 = 1 := by
      rcases hxodd with h | h
      · exact absurd (by exact_mod_cast h) hp2
      · exact h
    obtain ⟨a, ha⟩ : ∃ a, rsa_make_pub_pbits rnd nbits = a + 1 :=
      ⟨_, (Nat.sub_add_cancel hp1).symm⟩
    obtain ⟨b, hb⟩ : ∃ b, rsa_make_pub_qbits rnd nbits = b + 1 :=
      ⟨_, (Nat.sub_add_cancel (by omega : 1 ≤ rsa_make_pub_qbits rnd nbits)).symm⟩
    have hxl : 2 ^ rsa_make_pub_pbits rnd nbits ≤ x - 1 := by
      rw [ha, pow_succ] at hxlo ⊢; omega
    have hyl : 2 ^ rsa_make_pub_qbits rnd nbits ≤ y - 1 := by
      rw [hb, pow_succ] at hylo ⊢; omega
    have hmul : 2 ^ nbits ≤ (x - 1) * (y - 1) := by
      rw [← hsum, pow_add]
      exact Nat.mul_le_mul hxl hyl
    have hcast : (((x - 1) * (y - 1) : Nat) : Int) = ((x : Int) - 1) * ((y : Int) - 1) := by
      push_cast [Nat.cast_sub (by omega : 1 ≤ x), Nat.cast_sub (by omega : 1 ≤ y)]
      ring
    rw [← hcast]
    calc e < 2 ^ nbits := hehi
      _ ≤ (((x - 1) * (y - 1) : Nat) : Int) := by exact_mod_cast hmul
  · subst hx
    have hx2' : x = 2 := by exact_mod_cast hp2
    have : 2 ^ 2 ≤ 2 ^ rsa_make_pub_pbits rnd nbits :=
      Nat.pow_le_pow_right (by norm_num) (by omega)
    omega

/-- Witness for the amended C8: a run with `nbits = 4` that returns `p = 5`, `q = 7`,
`e = 5`. -/
theorem rsa_make_pub_exponent_range_witness :
    (1 : Int) ≤ 5 ∧ (5 : Int) < 2 ^ 4 ∧ ((5 : Int) ≠ 2 → (5 : Int) < (5 - 1) * (7 - 1)) ∧
      (8 ≤ 4 → (5 : Int) ≠ 2) :=
  rsa_make_pub_exponent_range (fun i => [5, 0, 7, 0, 4, 5].getD i 0) 1 4 1 5 0 5 7 35 5 6
    (by decide) (by decide)

/-- C9, as stated, fails: with `nbits = 4` and an even split `pbits = qbits = 2` both calls of
`make_prime` can return the same prime 5, so `p = q`. -/
theorem rsa_make_pub_equal_primes_counterexample :
    rsa_make_pub (fun i => [5, 0, 5, 0, 3].getD i 0) 1 4 1 5 0 = some (5, 5, 25, 3, 5) ∧
      ¬ ((5 : Int) ≠ 5) := by
  refine ⟨?_, by decide⟩
  decide

/-- C9, amended: for every `(p, q, n, e)` returned by `rsa_make_pub`, whatever the random
draws, `n = p * q`; `p` and `q` have exactly `pbits + 1` and `qbits + 1` bits, so they differ
whenever the split is uneven (`pbits ≠ qbits`). -/
theorem rsa_make_pub_modulus (rand : Nat → Nat) (rnd nbits iters fuel pos : Nat)
    (p q n e : Int) (pos1 : Nat) (hn : nbits < 2 ^ 64)
    (h : rsa_make_pub rand rnd nbits iters fuel pos = some (p, q, n, e, pos1)) :
    n = p * q ∧ (rsa_make_pub_pbits rnd nbits ≠ rsa_make_pub_qbits rnd nbits → p ≠ q) := by
  obtain ⟨x, y, hx, hy, hnpq, -, -, hxlo, hxhi, -, -, hylo, hyhi, -⟩ :=
    rsa_make_pub_spec rand rnd nbits iters fuel pos p q n e pos1 hn h
  refine ⟨hnpq, fun hne heq => ?_⟩
  subst hx hy
  have hxy : x = y := by exact_mod_cast heq
  subst hxy
  rcases Nat.lt_or_gt_of_ne hne with hlt | hlt
  · have : 2 ^ (rsa_make_pub_pbits rnd nbits + 1) ≤ 2 ^ rsa_make_pub_qbits rnd nbits :=
      Nat.pow_le_pow_right (by norm_num) hlt
    omega
  · have : 2 ^ (rsa_make_pub_qbits rnd nbits + 1) ≤ 2 ^ rsa_make_pub_pbits rnd nbits :=
      Nat.pow_le_pow_right (by norm_num) hlt
    omega

/-- Witness for the amended C9: a run with `nbits = 4` and the uneven split `pbits = 1`,
`qbits = 3` that returns `p = 3`, `q = 11`. -/
theorem rsa_make_pub_modulus_witness :
    (33 : Int) = 3 * 11 ∧
      (rsa_make_pub_pbits 0 4 ≠ rsa_make_pub_qbits 0 4 → (3 : Int) ≠ 11) :=
  rsa_make_pub_modulus (fun i => [3, 11, 0, 7].getD i 0) 0 4 1 5 0 3 11 33 7 4
    (by decide) (by decide)


/-! ## Byte and text conversions -/

theorem foldl_digits (b : Nat) (L : List Nat) (acc : Nat) :
    L.foldl (fun a d => a * b + d) acc = acc * b ^ L.length + Nat.ofDigits b L.reverse := by
  induction L generalizing acc with
  | nil => simp
  | cons x xs ih =>
    simp only [List.foldl_cons, List.length_cons, List.reverse_cons]
    rw [ih, Nat.ofDigits_append, Nat.ofDigits_singleton]
    simp only [List.length_reverse]
    ring

theorem import_marker (chunk : List Nat) (hb : ∀ b ∈ chunk, b < 256) :
    ∃ N : Nat, mpz_import (255 :: chunk) = (N : Int) ∧ 255 ≤ N ∧
      N < 256 ^ (chunk.length + 1) ∧ mpz_export (N : Int) = 255 :: chunk := by
  have hall : ∀ x ∈ (255 :: chunk).reverse, x < 256 := by
    intro x hx
    rw [List.mem_reverse, List.mem_cons] at hx
    rcases hx with h | h
    · omega
    · exact hb x h
  refine ⟨Nat.ofDigits 256 (255 :: chunk).reverse, ?_, ?_, ?_, ?_⟩
  · unfold mpz_import
    rw [foldl_digits]
    simp
  · rw [List.reverse_cons, Nat.ofDigits_append, Nat.ofDigits_singleton]
    have h1 : 1 ≤ 256 ^ chunk.reverse.length := Nat.one_le_pow _ _ (by norm_num)
    have h2 : 1 * 255 ≤ 256 ^ chunk.reverse.length * 255 := Nat.mul_le_mul_right _ h1
    omega
  · have := Nat.ofDigits_lt_base_pow_length (b := 256) (by norm_num) hall
    simpa using this
  · unfold mpz_export
    rw [Int.natAbs_ofNat, digits_be_eq 256 (by norm_num) _ _ [] le_rfl,
      Nat.digits_ofDigits 256 (by norm_num) _ hall]
    · simp
    · intro h
      simp

theorem hex_val_hex_char (d : Nat) (hd : d < 16) : hex_val (hex_char d) = some d := by
  unfold hex_char hex_val
  by_cases h : d < 10
  · simp only [h, if_true]
    rw [if_pos (by omega)]
    congr 1
    omega
  · simp only [h, if_false]
    rw [if_neg (by omega), if_pos (by omega)]
    congr 1
    omega

theorem hex_char_props (d : Nat) (hd : d < 16) :
    isxdigit (hex_char d) = true ∧ isspace (hex_char d) = false ∧ hex_char d ≠ 45 := by
  refine ⟨by simp [isxdigit, hex_val_hex_char d hd], ?_, ?_⟩
  · unfold isspace hex_char
    split <;> simp <;> omega
  · unfold hex_char
    split <;> omega

theorem print_Zx_pos (N : Nat) (hN : 0 < N) :
    ∃ h t, print_Zx (N : Int) = h :: t ∧ (∀ c ∈ h :: t, isxdigit c = true) ∧
      isspace h = false ∧ h ≠ 45 ∧
      (h :: t).foldl (fun acc c => acc * 16 + (hex_val c).getD 0) 0 = N := by
  have hne : (N : Int) ≠ 0 := by omega
  have hnn : ¬ ((N : Int) < 0) := by omega
  have hpr : print_Zx (N : Int) = ((Nat.digits 16 N).reverse).map hex_char := by
    unfold print_Zx
    simp only [hne, hnn, if_false, List.nil_append, Int.natAbs_ofNat]
    rw [digits_be_eq 16 (by norm_num) N N [] le_rfl, List.append_nil]
  have hdig : ∀ x ∈ (Nat.digits 16 N).reverse, x < 16 := by
    intro x hx
    rw [List.mem_reverse] at hx
    exact Nat.digits_lt_base (by norm_num) hx
  have hfold : ∀ (L : List Nat), (∀ x ∈ L, x < 16) → ∀ acc : Nat,
      (L.map hex_char).foldl (fun acc c => acc * 16 + (hex_val c).getD 0) acc
        = L.foldl (fun a d => a * 16 + d) acc := by
    intro L
    induction L with
    | nil => intro _ acc; rfl
    | cons x xs ih =>
      intro hL acc
      simp only [List.map_cons, List.foldl_cons]
      rw [hex_val_hex_char x (hL x (List.mem_cons_self _ _)), Option.getD_some]
      exact ih (fun y hy => hL y (List.mem_cons_of_mem _ hy)) _
  have hval : (print_Zx (N : Int)).foldl (fun acc c => acc * 16 + (hex_val c).getD 0) 0 = N := by
    rw [hpr, hfold _ hdig, foldl_digits]
    simp [Nat.ofDigits_digits]
  have hall : ∀ c ∈ print_Zx (N : Int),
      isxdigit c = true ∧ isspace c = false ∧ c ≠ 45 := by
    intro c hc
    rw [hpr, List.mem_map] at hc
    obtain ⟨x, hx, rfl⟩ := hc
    exact hex_char_props x (hdig x hx)
  cases hp : print_Zx (N : Int) with
  | nil =>
    rw [hp] at hval
    simp at hval
    omega
  | cons h t =>
    rw [hp] at hval hall
    exact ⟨h, t, rfl, fun c hc => (hall c hc).1, (hall h (List.mem_cons_self _ _)).2.1,
      (hall h (List.mem_cons_self _ _)).2.2, hval⟩

theorem fscanf_Zx_line (N : Nat) (hN : 0 < N) (rest : List Nat) (b : Bool)
    (hrest : rest.dropWhile isspace = rest) :
    fscanf_Zx ⟨print_Zx (N : Int) ++ 10 :: rest, b⟩
      = (some (N : Int), ⟨rest, decide (rest = [])⟩) := by
  obtain ⟨h, t, hp, hx, hs, h45, hval⟩ := print_Zx_pos N hN
  rw [hp]
  unfold fscanf_Zx
  have hsp : isspace 10 = true := by decide
  have hxd : isxdigit 10 = false := by decide
  have e1 : (h :: t ++ 10 :: rest).dropWhile isspace = h :: t ++ 10 :: rest := by
    rw [List.cons_append, List.dropWhile_cons_of_neg (by simp [hs])]
  have e2 : ¬ ((h :: t ++ 10 :: rest).head? = some 45) := by
    simp [h45]
  have e3 : (h :: t ++ 10 :: rest).takeWhile isxdigit = h :: t := by
    rw [List.takeWhile_append_of_pos hx, List.takeWhile_cons_of_neg (by simp [hxd])]
    simp
  have e4 : (h :: t ++ 10 :: rest).dropWhile isxdigit = 10 :: rest := by
    rw [List.dropWhile_append_of_pos hx, List.dropWhile_cons_of_neg (by simp [hxd])]
  have e5 : (10 :: rest).dropWhile isspace = rest := by
    rw [List.dropWhile_cons_of_pos hsp, hrest]
  simp only [e1, e2, if_false, e3, e4, e5, hval]
  simp

/-! ## Stream encryption followed by stream decryption -/

theorem rsa_encrypt_file_loop_acc (n e : Int) (k fuel : Nat) :
    ∀ (f : InStream) (out : List Nat),
      rsa_encrypt_file_loop n e k fuel f out
        = (rsa_encrypt_file_loop n e k fuel f []).map (fun ct => out ++ ct) := by
  induction fuel with
  | zero => intro f out; rfl
  | succ fuel ih =>
    intro f out
    unfold rsa_encrypt_file_loop
    by_cases heof : f.eof = true
    · simp [heof]
    · simp only [heof, Bool.false_eq_true, if_false]
      cases hc : rsa_encrypt (mpz_import (255 :: (fread (k - 1) f).1)) e n with
      | none => simp
      | some c =>
        simp only []
        rw [ih _ (out ++ print_Zx c ++ [10]), ih _ ([] ++ print_Zx c ++ [10]), Option.map_map]
        congr 1
        funext ct
        simp

theorem key_round_trip (p q : Nat) (n e d : Int) (hp : p.Prime) (hq : q.Prime) (hpq : p ≠ q)
    (hn : n = (p : Int) * (q : Int)) (he : 0 ≤ e) (hd : 0 ≤ d)
    (hed : e * d ≡ 1 [ZMOD ((p : Int) - 1) * ((q : Int) - 1)]) (N : Nat) (hN : 2 ≤ N)
    (hNn : (N : Int) < n) :
    ∃ C : Nat, 0 < C ∧ rsa_encrypt (N : Int) e n = some (C : Int) ∧
      rsa_decrypt (C : Int) d n = some (N : Int) := by
  obtain ⟨h1, h2⟩ := rsa_round_trip p q n e d N hp hq hpq hn he hd hed (by omega) hNn
  have hn0 : 0 < n := by omega
  have hc0 : 0 ≤ (N : Int) ^ e.toNat % n := Int.emod_nonneg _ (by omega)
  obtain ⟨C, hC⟩ := Int.eq_ofNat_of_zero_le hc0
  refine ⟨C, ?_, ?_, ?_⟩
  · rcases Nat.eq_zero_or_pos C with h0 | h0
    · exfalso
      subst h0
      rw [hC] at h2
      rcases eq_or_lt_of_le hd with hd0 | hdpos
      · subst hd0
        simp [pow_mod, pow_mod_loop] at h2
        omega
      · rw [pow_mod_pos _ _ _ hdpos hn0] at h2
        have hz : ((0 : Nat) : Int) ^ d.toNat = 0 := by
          apply zero_pow
          omega
        rw [hz] at h2
        simp at h2
        omega
    · exact h0
  · unfold rsa_encrypt; rw [h1, hC]
  · unfold rsa_decrypt; rw [← hC]; exact h2

theorem file_round_trip_loop (n e d : Int) (k : Nat) (hk : 2 ≤ k)
    (hkn : ((256 ^ k : Nat) : Int) ≤ n)
    (hrt : ∀ N : Nat, 2 ≤ N → (N : Int) < n → ∃ C : Nat, 0 < C ∧
      rsa_encrypt (N : Int) e n = some (C : Int) ∧ rsa_decrypt (C : Int) d n = some (N : Int))
    (fuel : Nat) : ∀ f : InStream, (∀ b ∈ f.rest, b < 256) → (f.eof = true → f.rest = []) →
      (f.eof = true → 1 ≤ fuel) → (f.eof = false → f.rest.length + 2 ≤ fuel) →
      ∃ ct, rsa_encrypt_file_loop n e k fuel f [] = some ct ∧ (ct = [] ↔ f.eof = true) ∧
        ct.dropWhile isspace = ct ∧
        ∀ (fuel2 : Nat) (cprev : Int) (out : List Nat), ct.length + 1 ≤ fuel2 →
          rsa_decrypt_file_loop n d k fuel2 ⟨ct, decide (ct = [])⟩ cprev out
            = some (out ++ f.rest) := by
  induction fuel with
  | zero =>
    intro f _ _ h1 h2
    cases hf : f.eof with
    | true => have := h1 hf; omega
    | false => have := h2 hf; omega
  | succ fuel ih =>
    intro f hbytes heofrest h1 h2
    unfold rsa_encrypt_file_loop
    cases hf : f.eof with
    | true =>
      refine ⟨[], by simp, by simp, by simp, ?_⟩
      intro fuel2 cprev out hfuel2
      obtain ⟨g, rfl⟩ : ∃ g, fuel2 = g + 1 := ⟨fuel2 - 1, by simp at hfuel2; omega⟩
      unfold rsa_decrypt_file_loop
      simp [heofrest hf]
    | false =>
      have hlen := h2 hf
      have hk1 : k - 1 ≠ 0 := by omega
      have hread : fread (k - 1) f = (f.rest.take (k - 1),
          ⟨f.rest.drop (k - 1), decide (f.rest.length < k - 1)⟩) := by
        unfold fread
        simp [hk1, hf]
      simp only [Bool.false_eq_true, if_false, hread]
      have hchunk : ∀ b ∈ f.rest.take (k - 1), b < 256 :=
        fun b hb => hbytes b (List.mem_of_mem_take hb)
      have hclen : (f.rest.take (k - 1)).length ≤ k - 1 := by
        rw [List.length_take]; omega
      obtain ⟨N, hN, hN255, hNlt, hexp⟩ := import_marker _ hchunk
      have hNn : (N : Int) < n := by
        have : 256 ^ ((f.rest.take (k - 1)).length + 1) ≤ 256 ^ k :=
          Nat.pow_le_pow_right (by norm_num) (by omega)
        have : N < 256 ^ k := by omega
        have : (N : Int) < ((256 ^ k : Nat) : Int) := by exact_mod_cast this
        omega
      obtain ⟨C, hC0, henc, hdec⟩ := hrt N (by omega) hNn
      rw [hN, henc]
      simp only []
      rw [rsa_encrypt_file_loop_acc]
      obtain ⟨ct1, hct1, hempty, hdrop, hdecr⟩ := ih
        ⟨f.rest.drop (k - 1), decide (f.rest.length < k - 1)⟩
        (fun b hb => hbytes b (List.mem_of_mem_drop hb))
        (by
          intro h
          simp only [decide_eq_true_eq] at h
          simp only [List.drop_eq_nil_iff]
          omega)
        (by intro _; omega)
        (by
          intro h
          simp only [decide_eq_false_iff_not, not_lt] at h
          simp only [List.length_drop]
          omega)
      rw [hct1]
      obtain ⟨hh, ht, hp, -, hs, -, -⟩ := print_Zx_pos C hC0
      refine ⟨print_Zx (C : Int) ++ 10 :: ct1, by simp, by simp [hp], ?_, ?_⟩
      · rw [hp]
        simp only [List.cons_append]
        rw [List.dropWhile_cons_of_neg (by simp [hs])]
      · intro fuel2 cprev out hfuel2
        have hne : print_Zx (C : Int) ++ 10 :: ct1 ≠ [] := by simp [hp]
        have hl : ct1.length + 2 ≤ (print_Zx (C : Int) ++ 10 :: ct1).length := by
          rw [hp]; simp only [List.cons_append, List.length_cons, List.length_append]; omega
        obtain ⟨g, rfl⟩ : ∃ g, fuel2 = g + 1 := ⟨fuel2 - 1, by omega⟩
        unfold rsa_decrypt_file_loop
        simp only [hne, decide_False, Bool.false_eq_true, if_false]
        rw [fscanf_Zx_line C hC0 ct1 false hdrop]
        simp only [Option.getD_some]
        have hCpos : (0 : Int) < (C : Int) := by omega
        rw [if_pos hCpos, hdec]
        simp only []
        rw [hexp]
        have hcond : ¬ ((255 :: f.rest.take (k - 1)).length = 0 ∨
            k < (255 :: f.rest.take (k - 1)).length) := by
          simp only [List.length_cons]
          omega
        rw [if_neg hcond, hdecr g (C : Int) _ (by omega)]
        simp

theorem block_size_bound (n : Int) (hn : 0 < n) :
    ((256 ^ ((mpz_sizeinbase2 n - 1) / 8) : Nat) : Int) ≤ n := by
  obtain ⟨x, rfl⟩ := Int.eq_ofNat_of_zero_le (le_of_lt hn)
  have hx : x ≠ 0 := by omega
  have h1 := pow_sizeinbase2_le x hx
  have h2 : 256 ^ ((mpz_sizeinbase2 (x : Int) - 1) / 8) ≤ 2 ^ (mpz_sizeinbase2 (x : Int) - 1) := by
    have : (256 : Nat) = 2 ^ 8 := by norm_num
    rw [this, ← pow_mul]
    exact Nat.pow_le_pow_right (by norm_num) (by omega)
  exact_mod_cast le_trans h2 h1

/-! ## Claim on the stream round trip -/

/-- C1: for a valid key (`n = p * q` with distinct primes `p`, `q`, non-negative exponents
with `e * d ≡ 1 (mod (p - 1) * (q - 1))`) whose block size
`k = (bitlength(n) - 1) / 8` is at least 2, and for every input byte sequence (the empty
one and the exact multiples of `k - 1` included), `rsa_encrypt_file` returns a ciphertext
text and `rsa_decrypt_file` on that text writes exactly the input bytes. -/
theorem rsa_file_round_trip (p q : Nat) (n e d : Int) (infile : List Nat) (hp : p.Prime)
    (hq : q.Prime) (hpq : p ≠ q) (hn : n = (p : Int) * (q : Int)) (he : 0 ≤ e) (hd : 0 ≤ d)
    (hed : e * d ≡ 1 [ZMOD ((p : Int) - 1) * ((q : Int) - 1)])
    (hk : 2 ≤ (mpz_sizeinbase2 n - 1) / 8) (hb : ∀ b ∈ infile, b < 256) :
    ∃ ct, rsa_encrypt_file infile n e = some ct ∧ rsa_decrypt_file ct n d = some infile := by
  have hn0 : 0 < n := by
    rw [hn]
    exact mul_pos (by exact_mod_cast hp.pos) (by exact_mod_cast hq.pos)
  obtain ⟨ct, hct, hempty, -, hdec⟩ := file_round_trip_loop n e d _ hk (block_size_bound n hn0)
    (fun N hN hNn => key_round_trip p q n e d hp hq hpq hn he hd hed N hN hNn)
    (infile.length + 2) ⟨infile, false⟩ hb (by simp) (by simp) (by simp)
  refine ⟨ct, ?_, ?_⟩
  · unfold rsa_encrypt_file
    simp only []
    rw [if_neg (by omega)]
    exact hct
  · have hne : ct ≠ [] := by
      intro h
      have := hempty.1 h
      simp at this
    have := hdec (ct.length + 2) 0 [] (by omega)
    simp only [hne, decide_False, List.nil_append] at this
    unfold rsa_decrypt_file
    exact this

/-- Witness for C1: the key `n = 257 * 263`, `e = 3`, `d = 44715` (block size `k = 2`) and a
three-byte input. -/
theorem rsa_file_round_trip_witness :
    ∃ ct, rsa_encrypt_file [72, 0, 105] 67591 3 = some ct ∧
      rsa_decrypt_file ct 67591 44715 = some [72, 0, 105] :=
  rsa_file_round_trip 257 263 67591 3 44715 [72, 0, 105] (by norm_num) (by norm_num)
    (by decide) (by norm_num) (by decide) (by decide) (by decide) (by decide) (by decide)


/-! ## Signatures -/

theorem modEq_symm_product (a b c : Int) (h : a * b ≡ 1 [ZMOD c]) : b * a ≡ 1 [ZMOD c] := by
  rw [mul_comm]; exact h

/-- C11: for a valid key (`n = p * q` with distinct primes, non-negative exponents with
`e * d ≡ 1 (mod (p - 1) * (q - 1))`) and a message `0 ≤ m < n`, `rsa_sign` returns a
signature that `rsa_verify` accepts. -/
theorem rsa_verify_sign (p q : Nat) (n e d m : Int) (hp : p.Prime) (hq : q.Prime)
    (hpq : p ≠ q) (hn : n = (p : Int) * (q : Int)) (he : 0 ≤ e) (hd : 0 ≤ d)
    (hed : e * d ≡ 1 [ZMOD ((p : Int) - 1) * ((q : Int) - 1)])
    (hm0 : 0 ≤ m) (hmn : m < n) :
    ∃ s, rsa_sign m d n = some s ∧ rsa_verify m s e n = some true := by
  obtain ⟨h1, h2⟩ := rsa_round_trip p q n d e m hp hq hpq hn hd he
    (modEq_symm_product e d _ hed) hm0 hmn
  refine ⟨m ^ d.toNat % n, h1, ?_⟩
  unfold rsa_verify
  rw [h2]
  simp

/-- Witness for C11: the key `n = 3 * 11`, `e = 3`, `d = 7` and the message `m = 5`. -/
theorem rsa_verify_sign_witness :
    ∃ s, rsa_sign 5 7 33 = some s ∧ rsa_verify 5 s 3 33 = some true :=
  rsa_verify_sign 3 11 33 3 7 5 (by norm_num) (by norm_num) (by decide) (by norm_num)
    (by decide) (by decide) (by decide) (by decide) (by decide)

/-! ## Block framing, prime generation and the bit split -/

/-- C13: for a modulus `n > 0` with `k = (bitlength(n) - 1) / 8 ≥ 1` and a chunk of at most
`k - 1` bytes, the integer imported from `0xFF` followed by the chunk lies strictly between
0 and `n`, and exporting it yields `0xFF` followed by the same bytes. -/
theorem block_bound (n : Int) (chunk : List Nat) (hn : 0 < n)
    (hk : 1 ≤ (mpz_sizeinbase2 n - 1) / 8)
    (hj : chunk.length ≤ (mpz_sizeinbase2 n - 1) / 8 - 1) (hb : ∀ b ∈ chunk, b < 256) :
    0 < mpz_import (255 :: chunk) ∧ mpz_import (255 :: chunk) < n ∧
      mpz_export (mpz_import (255 :: chunk)) = 255 :: chunk := by
  obtain ⟨N, hN, h255, hlt, hexp⟩ := import_marker chunk hb
  have hbound := block_size_bound n hn
  rw [hN]
  refine ⟨by omega, ?_, hexp⟩
  have h1 : 256 ^ (chunk.length + 1) ≤ 256 ^ ((mpz_sizeinbase2 n - 1) / 8) :=
    Nat.pow_le_pow_right (by norm_num) (by omega)
  have h2 : N < 256 ^ ((mpz_sizeinbase2 n - 1) / 8) := by omega
  have h3 : (N : Int) < ((256 ^ ((mpz_sizeinbase2 n - 1) / 8) : Nat) : Int) := by
    exact_mod_cast h2
  omega

/-- Witness for C13: the modulus `67591` (17 bits, `k = 2`) and a one-byte chunk. -/
theorem block_bound_witness :
    0 < mpz_import (255 :: [0]) ∧ mpz_import (255 :: [0]) < 67591 ∧
      mpz_export (mpz_import (255 :: [0])) = 255 :: [0] :=
  block_bound 67591 [0] (by decide) (by decide) (by decide) (by decide)

theorem sizeinbase2_exact (x bits : Nat) (h1 : 2 ^ bits ≤ x) (h2 : x < 2 ^ (bits + 1)) :
    mpz_sizeinbase2 (x : Int) = bits + 1 := by
  have hx : x ≠ 0 := by
    have : 0 < 2 ^ bits := by positivity
    omega
  rw [sizeinbase2_of_pos x hx, Nat.log_eq_of_pow_le_of_lt_pow h1 h2]

theorem make_prime_accept (rand : Nat → Nat) (bits iters : Nat) (hbits : bits < 2 ^ 64)
    (fuel : Nat) : ∀ (pos : Nat) (p : Int) (pos1 : Nat),
    make_prime rand bits iters fuel pos = some (p, pos1) →
      ∃ x : Nat, p = (x : Int) ∧ 2 ^ bits ≤ x ∧ x < 2 ^ (bits + 1) ∧
        ∃ pos0, is_prime rand p iters pos0 = some (true, pos1) := by
  induction fuel with
  | zero => intro pos p pos1 h; simp [make_prime] at h
  | succ fuel ih =>
    intro pos p pos1 h
    unfold make_prime at h
    dsimp only at h
    cases hip : is_prime rand (mpz_urandomb rand pos ((bits + 1) % 2 ^ 64)) iters (pos + 1) with
    | none => rw [hip] at h; simp at h
    | some res =>
      obtain ⟨b, pos2⟩ := res
      rw [hip] at h
      dsimp only at h
      by_cases hc : b = false ∨
          mpz_sizeinbase2 (mpz_urandomb rand pos ((bits + 1) % 2 ^ 64)) < (bits + 1) % 2 ^ 64
      · rw [if_pos hc] at h
        exact ih _ _ _ h
      · rw [if_neg hc] at h
        simp only [Option.some.injEq, Prod.mk.injEq] at h
        obtain ⟨hpe, hpos⟩ := h
        have hb : b = true := by
          cases b
          · exact absurd (Or.inl rfl) hc
          · rfl
        subst hb hpos
        have hsz : (bits + 1) % 2 ^ 64 ≤
            mpz_sizeinbase2 (mpz_urandomb rand pos ((bits + 1) % 2 ^ 64)) := by
          by_contra hlt
          exact hc (Or.inr (by omega))
        obtain ⟨h2, -⟩ := is_prime_true _ _ _ _ _ hip
        have hwrap : (bits + 1) % 2 ^ 64 = bits + 1 := by
          rcases Nat.lt_or_ge (bits + 1) (2 ^ 64) with hlt | hge
          · exact Nat.mod_eq_of_lt hlt
          · exfalso
            have h0 : (bits + 1) % 2 ^ 64 = 0 := by
              have : bits + 1 = 2 ^ 64 := by omega
              rw [this, Nat.mod_self]
            rw [h0] at h2
            unfold mpz_urandomb at h2
            simp at h2
        rw [hwrap] at hsz hip h2 hpe
        unfold mpz_urandomb at h2 hsz hpe
        refine ⟨rand pos % 2 ^ (bits + 1), hpe.symm, ?_, Nat.mod_lt _ (by positivity),
          pos + 1, ?_⟩
        · exact pow_le_of_sizeinbase2 _ bits (by omega) hsz
        · rw [← hpe]; exact hip

/-- C14: whenever `make_prime(bits, iters)` returns `p`, for every random stream and every
bound on the number of candidates, the bit length of `p` is exactly `bits + 1`, that is
`2 ^ bits ≤ p < 2 ^ (bits + 1)`, and the call `is_prime(p, iters)` of the accepting
iteration returned true. -/
theorem make_prime_result (rand : Nat → Nat) (bits iters fuel pos : Nat) (p : Int)
    (pos1 : Nat) (hbits : bits < 2 ^ 64)
    (h : make_prime rand bits iters fuel pos = some (p, pos1)) :
    mpz_sizeinbase2 p = bits + 1 ∧ 2 ^ bits ≤ p ∧ p < 2 ^ (bits + 1) ∧
      ∃ pos0, is_prime rand p iters pos0 = some (true, pos1) := by
  obtain ⟨x, rfl, hlo, hhi, hip⟩ := make_prime_accept rand bits iters hbits fuel pos p pos1 h
  exact ⟨sizeinbase2_exact x bits hlo hhi, by exact_mod_cast hlo, by exact_mod_cast hhi, hip⟩

/-- Witness for C14: `make_prime(2, 2)` rejects the candidates 4 and 0 and returns 5. -/
theorem make_prime_result_witness :
    mpz_sizeinbase2 5 = 2 + 1 ∧ (2 : Int) ^ 2 ≤ 5 ∧ (5 : Int) < 2 ^ (2 + 1) ∧
      ∃ pos0, is_prime (fun i => [4, 0, 5, 0, 0].getD i 0) 5 2 pos0 = some (true, 5) :=
  make_prime_result (fun i => [4, 0, 5, 0, 0].getD i 0) 2 2 5 0 5 5 (by decide) (by decide)

/-- C15: edge policy of `is_prime`, for every iteration count and every random stream:
false for `n < 2`, true for `n = 2` and `n = 3`, false for every even `n > 2`; no random
draw is consumed. -/
theorem is_prime_edge (rand : Nat → Nat) (n : Int) (iters pos : Nat) :
    (n < 2 → is_prime rand n iters pos = some (false, pos)) ∧
      (n = 2 ∨ n = 3 → is_prime rand n iters pos = some (true, pos)) ∧
      (2 < n → n % 2 = 0 → is_prime rand n iters pos = some (false, pos)) := by
  unfold is_prime
  rw [Int.fmod_eq_emod _ (by norm_num)]
  refine ⟨fun h => by simp [h], fun h => ?_, fun h1 h2 => ?_⟩
  · rcases h with h | h <;> subst h <;> simp
  · have h3 : ¬ n < 2 := by omega
    have h4 : n ≠ 2 := by omega
    simp [h3, h4, h2]

/-- Witness for C15: the values 1, 2, 3 and 100 with zero rounds. -/
theorem is_prime_edge_witness :
    is_prime (fun _ => 0) 1 0 0 = some (false, 0) ∧ is_prime (fun _ => 0) 2 0 0 = some (true, 0) ∧
      is_prime (fun _ => 0) 3 0 0 = some (true, 0) ∧
      is_prime (fun _ => 0) 100 0 0 = some (false, 0) :=
  ⟨(is_prime_edge (fun _ => 0) 1 0 0).1 (by decide),
    (is_prime_edge (fun _ => 0) 2 0 0).2.1 (Or.inl rfl),
    (is_prime_edge (fun _ => 0) 3 0 0).2.1 (Or.inr rfl),
    (is_prime_edge (fun _ => 0) 100 0 0).2.2 (by decide) (by decide)⟩


/-- C16: for every `(p, q, n, e)` returned by `rsa_make_pub(nbits, iters)`, whatever the
random draws, `n ≥ 2 ^ nbits`, so the bit length of `n` is at least `nbits` (it is at least
`nbits + 1`).  The bound `nbits ≥ 4` of the claim is not needed as a hypothesis: no run with
a smaller `nbits` returns. -/
theorem rsa_make_pub_modulus_size (rand : Nat → Nat) (rnd nbits iters fuel pos : Nat)
    (p q n e : Int) (pos1 : Nat) (hn : nbits < 2 ^ 64)
    (h : rsa_make_pub rand rnd nbits iters fuel pos = some (p, q, n, e, pos1)) :
    2 ^ nbits ≤ n ∧ nbits ≤ mpz_sizeinbase2 n ∧ nbits + 1 ≤ mpz_sizeinbase2 n := by
  obtain ⟨x, y, hx, hy, hnpq, -, -, hxlo, -, -, -, hylo, -, -, -, -, -, -, -, hsum⟩ :=
    rsa_make_pub_spec rand rnd nbits iters fuel pos p q n e pos1 hn h
  subst hx hy
  have hmul : 2 ^ nbits ≤ x * y := by
    rw [← hsum, pow_add]
    exact Nat.mul_le_mul hxlo hylo
  have hn' : n = ((x * y : Nat) : Int) := by rw [hnpq]; push_cast; rfl
  have hpos : x * y ≠ 0 := by
    have : 0 < 2 ^ nbits := by positivity
    omega
  have hlog : nbits ≤ Nat.log 2 (x * y) := Nat.le_log_of_pow_le (by norm_num) hmul
  rw [hn', sizeinbase2_of_pos _ hpos]
  exact ⟨by exact_mod_cast hmul, by omega, by omega⟩

/-- Witness for C16: a run with `nbits = 4` that returns `n = 35`. -/
theorem rsa_make_pub_modulus_size_witness :
    (2 : Int) ^ 4 ≤ 35 ∧ 4 ≤ mpz_sizeinbase2 35 ∧ 4 + 1 ≤ mpz_sizeinbase2 35 :=
  rsa_make_pub_modulus_size (fun i => [5, 0, 7, 0, 4, 5].getD i 0) 1 4 1 5 0 5 7 35 5 6
    (by decide) (by decide)

theorem bit_split_arith (nbits r : Nat) (h4 : 4 ≤ nbits) (hn : nbits < 4611686018427387904)
    (hlt : r < 2 * nbits % 18446744073709551616 / 4) :
    (r + nbits / 4) % 18446744073709551616 = r + nbits / 4 ∧
      (nbits + 18446744073709551616 - (r + nbits / 4)) % 18446744073709551616
        = nbits - (r + nbits / 4) ∧
      r + nbits / 4 ≤ 3 * nbits / 4 ∧ r + nbits / 4 + 1 ≤ nbits ∧ 1 ≤ nbits / 4 := by
  have hr2 : r < nbits / 2 := by omega
  refine ⟨?_, ?_, ?_, ?_, ?_⟩ <;> omega

/-- C17: for `4 ≤ nbits < 2 ^ 62` and every value `rnd` returned by `random()`, the modulus
`2 * nbits / 4` of the draw is non-zero and the sizes computed in `rsa_make_pub` satisfy
`nbits / 4 ≤ pbits ≤ 3 * nbits / 4`, `qbits = nbits - pbits` (without wrap-around, so
`pbits + qbits = nbits`), `pbits ≥ 1` and `qbits ≥ 1`. -/
theorem rsa_make_pub_bit_split (rnd nbits : Nat) (h4 : 4 ≤ nbits) (hn : nbits < 2 ^ 62) :
    rsa_make_pub_range nbits ≠ 0 ∧
      nbits / 4 ≤ rsa_make_pub_pbits rnd nbits ∧ rsa_make_pub_pbits rnd nbits ≤ 3 * nbits / 4 ∧
      rsa_make_pub_qbits rnd nbits = nbits - rsa_make_pub_pbits rnd nbits ∧
      rsa_make_pub_pbits rnd nbits + rsa_make_pub_qbits rnd nbits = nbits ∧
      1 ≤ rsa_make_pub_pbits rnd nbits ∧ 1 ≤ rsa_make_pub_qbits rnd nbits := by
  have hr : rsa_make_pub_range nbits ≠ 0 := by
    unfold rsa_make_pub_range
    norm_num at hn ⊢
    omega
  have hlt : rnd % rsa_make_pub_range nbits < rsa_make_pub_range nbits :=
    Nat.mod_lt _ (Nat.pos_of_ne_zero hr)
  refine ⟨hr, ?_⟩
  unfold rsa_make_pub_qbits rsa_make_pub_pbits
  generalize rnd % rsa_make_pub_range nbits = r at hlt
  unfold rsa_make_pub_range at hlt
  norm_num at hn hlt ⊢
  obtain ⟨e1, e2, h3, h5, h6⟩ := bit_split_arith nbits r h4 hn hlt
  rw [e1, e2]
  refine ⟨by omega, h3, rfl, by omega, by omega, by omega⟩

/-- Witness for C17: `nbits = 256` and `random() = 1804289383`. -/
theorem rsa_make_pub_bit_split_witness :
    rsa_make_pub_range 256 ≠ 0 ∧
      256 / 4 ≤ rsa_make_pub_pbits 1804289383 256 ∧
      rsa_make_pub_pbits 1804289383 256 ≤ 3 * 256 / 4 ∧
      rsa_make_pub_qbits 1804289383 256 = 256 - rsa_make_pub_pbits 1804289383 256 ∧
      rsa_make_pub_pbits 1804289383 256 + rsa_make_pub_qbits 1804289383 256 = 256 ∧
      1 ≤ rsa_make_pub_pbits 1804289383 256 ∧ 1 ≤ rsa_make_pub_qbits 1804289383 256 :=
  rsa_make_pub_bit_split 1804289383 256 (by decide) (by decide)


/-! ## Key files -/

theorem print_Zx_nonneg (N : Nat) :
    ∃ h t, print_Zx (N : Int) = h :: t ∧ (∀ c ∈ h :: t, isxdigit c = true) ∧
      isspace h = false ∧ h ≠ 45 ∧
      (h :: t).foldl (fun acc c => acc * 16 + (hex_val c).getD 0) 0 = N := by
  rcases Nat.eq_zero_or_pos N with h0 | hpos
  · subst h0
    exact ⟨48, [], by decide, by decide, by decide, by decide, by decide⟩
  · exact print_Zx_pos N hpos

theorem fscanf_Zx_line_nonneg (N : Nat) (rest : List Nat) (b : Bool)
    (hrest : rest.dropWhile isspace = rest) :
    fscanf_Zx ⟨print_Zx (N : Int) ++ 10 :: rest, b⟩
      = (some (N : Int), ⟨rest, decide (rest = [])⟩) := by
  obtain ⟨h, t, hp, hx, hs, h45, hval⟩ := print_Zx_nonneg N
  rw [hp]
  unfold fscanf_Zx
  have hsp : isspace 10 = true := by decide
  have hxd : isxdigit 10 = false := by decide
  have e1 : (h :: t ++ 10 :: rest).dropWhile isspace = h :: t ++ 10 :: rest := by
    rw [List.cons_append, List.dropWhile_cons_of_neg (by simp [hs])]
  have e2 : ¬ ((h :: t ++ 10 :: rest).head? = some 45) := by
    simp [h45]
  have e3 : (h :: t ++ 10 :: rest).takeWhile isxdigit = h :: t := by
    rw [List.takeWhile_append_of_pos hx, List.takeWhile_cons_of_neg (by simp [hxd])]
    simp
  have e4 : (h :: t ++ 10 :: rest).dropWhile isxdigit = 10 :: rest := by
    rw [List.dropWhile_append_of_pos hx, List.dropWhile_cons_of_neg (by simp [hxd])]
  have e5 : (10 :: rest).dropWhile isspace = rest := by
    rw [List.dropWhile_cons_of_pos hsp, hrest]
  simp only [e1, e2, if_false, e3, e4, e5, hval]
  simp

theorem print_Zx_line (N : Nat) (rest : List Nat) :
    (print_Zx (N : Int) ++ 10 :: rest).dropWhile isspace = print_Zx (N : Int) ++ 10 :: rest ∧
      print_Zx (N : Int) ++ 10 :: rest ≠ [] ∧ 10 ∉ print_Zx (N : Int) := by
  obtain ⟨h, t, hp, hx, hs, -, -⟩ := print_Zx_nonneg N
  rw [hp]
  refine ⟨?_, by simp, ?_⟩
  · rw [List.cons_append, List.dropWhile_cons_of_neg (by simp [hs])]
  · intro hmem
    have := hx 10 hmem
    revert this
    decide

theorem fscanf_s_line (username : List Nat) (cap : Nat) (b : Bool) (hne : username ≠ [])
    (hsp : ∀ c ∈ username, isspace c = false) (hnul : ∀ c ∈ username, c ≠ 0)
    (hcap : username.length < cap) :
    fscanf_s cap ⟨username ++ [10], b⟩ = some (some username, ⟨[], true⟩) := by
  obtain ⟨h, t, rfl⟩ := List.exists_cons_of_ne_nil hne
  have hs10 : isspace 10 = true := by decide
  have hh : isspace h = false := hsp h (List.mem_cons_self _ _)
  have hall : ∀ c ∈ h :: t, (fun c => !isspace c) c = true := by
    intro c hc
    simp [hsp c hc]
  have e1 : (h :: t ++ [10]).dropWhile isspace = h :: t ++ [10] := by
    rw [List.cons_append, List.dropWhile_cons_of_neg (by simp [hh])]
  have e2 : (h :: t ++ [10]).takeWhile (fun c => !isspace c) = h :: t := by
    rw [List.takeWhile_append_of_pos hall, List.takeWhile_cons_of_neg (by simp [hs10])]
    simp
  have e3 : (h :: t ++ [10]).dropWhile (fun c => !isspace c) = [10] := by
    rw [List.dropWhile_append_of_pos hall, List.dropWhile_cons_of_neg (by simp [hs10])]
  have e4 : ([10] : List Nat).dropWhile isspace = [] := by decide
  have e5 : (h :: t).takeWhile (fun c => decide (c ≠ 0)) = h :: t := by
    rw [List.takeWhile_eq_self_iff]
    intro c hc
    simp [hnul c hc]
  have hcap' : ¬ cap < (h :: t).length + 1 := by omega
  unfold fscanf_s
  simp only [e1, e2, e3, e4, e5, hcap', if_false]
  simp

theorem rsa_read_priv_write_priv (N D : Nat) (n0 d0 : Int) :
    rsa_read_priv n0 d0 ⟨rsa_write_priv (N : Int) (D : Int), false⟩
      = ((N : Int), (D : Int), ⟨[], true⟩) := by
  unfold rsa_read_priv rsa_write_priv
  have hform : print_Zx (N : Int) ++ [10] ++ (print_Zx (D : Int) ++ [10])
      = print_Zx (N : Int) ++ 10 :: (print_Zx (D : Int) ++ 10 :: []) := by simp
  obtain ⟨hd1, hd2, -⟩ := print_Zx_line D []
  rw [hform, fscanf_Zx_line_nonneg N _ false hd1]
  simp only []
  rw [fscanf_Zx_line_nonneg D [] _ rfl]
  simp

theorem rsa_read_pub_write_pub (N E S : Nat) (username : List Nat) (cap : Nat)
    (n0 e0 s0 : Int) (u0 : List Nat) (hne : username ≠ [])
    (hsp : ∀ c ∈ username, isspace c = false) (hnul : ∀ c ∈ username, c ≠ 0)
    (hcap : username.length < cap) :
    rsa_read_pub n0 e0 s0 u0 cap ⟨rsa_write_pub (N : Int) (E : Int) (S : Int) username, false⟩
      = some ((N : Int), (E : Int), (S : Int), username, ⟨[], true⟩) := by
  unfold rsa_read_pub rsa_write_pub
  have hform : print_Zx (N : Int) ++ [10] ++ (print_Zx (E : Int) ++ [10]) ++
      (print_Zx (S : Int) ++ [10]) ++ (username ++ [10])
      = print_Zx (N : Int) ++ 10 :: (print_Zx (E : Int) ++ 10 ::
          (print_Zx (S : Int) ++ 10 :: (username ++ [10]))) := by simp
  obtain ⟨h, t, hu⟩ := List.exists_cons_of_ne_nil hne
  have hu1 : (username ++ [10]).dropWhile isspace = username ++ [10] := by
    rw [hu, List.cons_append, List.dropWhile_cons_of_neg]
    have := hsp h (by rw [hu]; exact List.mem_cons_self _ _)
    simp [this]
  obtain ⟨hs1, -, -⟩ := print_Zx_line S (username ++ [10])
  obtain ⟨he1, -, -⟩ := print_Zx_line E (print_Zx (S : Int) ++ 10 :: (username ++ [10]))
  rw [hform, fscanf_Zx_line_nonneg N _ false he1]
  simp only []
  rw [fscanf_Zx_line_nonneg E _ _ hs1]
  simp only []
  rw [fscanf_Zx_line_nonneg S _ _ hu1]
  simp only []
  rw [fscanf_s_line username cap _ hne hsp hnul hcap]
  simp

/-- C18, as stated, fails: the identity string `a b` (bytes 97, 32, 98) is written on one
line, but the `%s` conversion of `rsa_read_pub` stops at the blank and returns `a`. -/
theorem rsa_read_pub_blank_counterexample :
    rsa_read_pub 0 0 0 [] 256 ⟨rsa_write_pub 255 3 7 [97, 32, 98], false⟩
        = some (255, 3, 7, [97], ⟨[98, 10], false⟩) ∧
      ([97] : List Nat) ≠ [97, 32, 98] := by
  refine ⟨?_, by decide⟩
  decide

/-- C18, amended: for non-negative `n`, `e`, `s` and every identity string that is not
empty, contains no white space and fits the caller's array, `rsa_write_pub` emits four
lines (`n`, `e`, `s` in radix 16, then the identity string) and `rsa_read_pub` applied to
that text yields the identical `n`, `e`, `s` and identity string, whatever the variables
held before. -/
theorem rsa_pub_round_trip (n e s : Int) (username : List Nat) (cap : Nat) (n0 e0 s0 : Int)
    (u0 : List Nat) (hn : 0 ≤ n) (he : 0 ≤ e) (hs : 0 ≤ s) (hne : username ≠ [])
    (hsp : ∀ c ∈ username, isspace c = false) (hnul : ∀ c ∈ username, c ≠ 0)
    (hcap : username.length < cap) :
    rsa_write_pub n e s username
        = print_Zx n ++ [10] ++ (print_Zx e ++ [10]) ++ (print_Zx s ++ [10]) ++ (username ++ [10]) ∧
      10 ∉ print_Zx n ∧ 10 ∉ print_Zx e ∧ 10 ∉ print_Zx s ∧ 10 ∉ username ∧
      rsa_read_pub n0 e0 s0 u0 cap ⟨rsa_write_pub n e s username, false⟩
        = some (n, e, s, username, ⟨[], true⟩) := by
  obtain ⟨N, rfl⟩ := Int.eq_ofNat_of_zero_le hn
  obtain ⟨E, rfl⟩ := Int.eq_ofNat_of_zero_le he
  obtain ⟨S, rfl⟩ := Int.eq_ofNat_of_zero_le hs
  refine ⟨rfl, (print_Zx_line N []).2.2, (print_Zx_line E []).2.2, (print_Zx_line S []).2.2,
    ?_, rsa_read_pub_write_pub N E S username cap n0 e0 s0 u0 hne hsp hnul hcap⟩
  intro hmem
  have := hsp 10 hmem
  revert this
  decide

/-- Witness for the amended C18: the identity string `alice`. -/
theorem rsa_pub_round_trip_witness :
    rsa_write_pub 67591 3 21580 [97, 108, 105, 99, 101]
        = print_Zx 67591 ++ [10] ++ (print_Zx 3 ++ [10]) ++ (print_Zx 21580 ++ [10]) ++
          ([97, 108, 105, 99, 101] ++ [10]) ∧
      10 ∉ print_Zx 67591 ∧ 10 ∉ print_Zx 3 ∧ 10 ∉ print_Zx 21580 ∧
      10 ∉ ([97, 108, 105, 99, 101] : List Nat) ∧
      rsa_read_pub 0 0 0 [] 256 ⟨rsa_write_pub 67591 3 21580 [97, 108, 105, 99, 101], false⟩
        = some (67591, 3, 21580, [97, 108, 105, 99, 101], ⟨[], true⟩) :=
  rsa_pub_round_trip 67591 3 21580 [97, 108, 105, 99, 101] 256 0 0 0 [] (by decide) (by decide)
    (by decide) (by decide) (by decide) (by decide) (by decide)

/-- C19: for non-negative `n` and `d`, `rsa_write_priv` emits exactly two lines (`n` then
`d`, each in radix 16) and `rsa_read_priv` applied to that text yields the identical `n` and
`d`, whatever the variables held before. -/
theorem rsa_priv_round_trip (n d n0 d0 : Int) (hn : 0 ≤ n) (hd : 0 ≤ d) :
    rsa_write_priv n d = print_Zx n ++ [10] ++ (print_Zx d ++ [10]) ∧
      10 ∉ print_Zx n ∧ 10 ∉ print_Zx d ∧
      rsa_read_priv n0 d0 ⟨rsa_write_priv n d, false⟩ = (n, d, ⟨[], true⟩) := by
  obtain ⟨N, rfl⟩ := Int.eq_ofNat_of_zero_le hn
  obtain ⟨D, rfl⟩ := Int.eq_ofNat_of_zero_le hd
  exact ⟨rfl, (print_Zx_line N []).2.2, (print_Zx_line D []).2.2,
    rsa_read_priv_write_priv N D n0 d0⟩

/-- Witness for C19: the private key `n = 67591`, `d = 44715`. -/
theorem rsa_priv_round_trip_witness :
    rsa_write_priv 67591 44715 = print_Zx 67591 ++ [10] ++ (print_Zx 44715 ++ [10]) ∧
      10 ∉ print_Zx 67591 ∧ 10 ∉ print_Zx 44715 ∧
      rsa_read_priv 0 0 ⟨rsa_write_priv 67591 44715, false⟩ = (67591, 44715, ⟨[], true⟩) :=
  rsa_priv_round_trip 67591 44715 0 0 (by decide) (by decide)


/-! ## Euclid's algorithm on signed inputs -/

theorem fmod_neg_bounds (a b : Int) (hb : b < 0) : b < Int.fmod a b ∧ Int.fmod a b ≤ 0 := by
  cases a with
  | ofNat m =>
    cases b with
    | ofNat n => simp only [Int.ofNat_eq_coe] at hb; omega
    | negSucc n =>
      cases m with
      | zero => simp [Int.negSucc_eq]; omega
      | succ m =>
        simp only [Int.ofNat_eq_coe, Int.fmod, Int.subNatNat_eq_coe, Int.negSucc_eq]
        have := Nat.mod_lt m (Nat.succ_pos n)
        omega
  | negSucc m =>
    cases b with
    | ofNat n => simp only [Int.ofNat_eq_coe] at hb; omega
    | negSucc n =>
      simp only [Int.fmod, Int.negSucc_eq, Int.ofNat_eq_coe, Nat.succ_eq_add_one]
      have := Nat.mod_lt (m + 1) (Nat.succ_pos n)
      simp only [Nat.succ_eq_add_one] at this
      omega

theorem fmod_natAbs_lt (a b : Int) (hb : b ≠ 0) : (Int.fmod a b).natAbs < b.natAbs := by
  rcases lt_or_gt_of_ne hb with hneg | hpos
  · obtain ⟨h1, h2⟩ := fmod_neg_bounds a b hneg
    omega
  · have h1 := Int.fmod_nonneg' a hpos
    have h2 := Int.fmod_lt_of_pos a hpos
    omega

theorem int_gcd_fmod (a b : Int) : Int.gcd b (Int.fmod a b) = Int.gcd a b := by
  have hdef := Int.fmod_def a b
  have h : ((Int.gcd a b : Nat) : Int) = ((Int.gcd b (Int.fmod a b) : Nat) : Int) := by
    apply Int.gcd_greatest (by positivity) Int.gcd_dvd_right
    · rw [hdef]
      exact dvd_sub Int.gcd_dvd_left (Dvd.dvd.mul_right Int.gcd_dvd_right _)
    · intro e h1 h2
      apply Int.dvd_gcd _ h1
      have : a = Int.fmod a b + b * Int.fdiv a b := by rw [hdef]; ring
      rw [this]
      exact dvd_add h2 (Dvd.dvd.mul_right h1 _)
  exact_mod_cast h.symm

theorem gcd_loop_signed (fuel : Nat) (a b : Int) (hf : b.natAbs < fuel) :
    ∃ g, gcd_loop fuel a b = some g ∧ g.natAbs = Int.gcd a b := by
  induction fuel generalizing a b with
  | zero => omega
  | succ fuel ih =>
    unfold gcd_loop
    by_cases h0 : b = 0
    · subst h0
      exact ⟨a, by simp, by simp⟩
    · simp only [ne_eq, h0, not_false_eq_true, if_true]
      have hlt := fmod_natAbs_lt a b h0
      obtain ⟨g, hg, hgabs⟩ := ih b (Int.fmod a b) (by omega)
      exact ⟨g, hg, by rw [hgabs, int_gcd_fmod]⟩

theorem gcd_signed (a b : Int) : ∃ g, gcd a b = some g ∧ g.natAbs = Int.gcd a b :=
  gcd_loop_signed _ a b (by omega)

/-- C20, as stated, fails on signed inputs: the remainder of the floor division takes the
sign of the divisor, so `gcd(-4, 6) = 2` while `gcd(6, -4) = -2`. -/
theorem gcd_comm_counterexample :
    gcd (-4) 6 = some 2 ∧ gcd 6 (-4) = some (-2) ∧ gcd (-4) 6 ≠ gcd 6 (-4) := by
  decide

/-- C20, amended: for all big integers `a` and `b`, `gcd(a, b)` and `gcd(b, a)` both return
and agree up to sign (their absolute value is the greatest common divisor); they are equal
whenever `a` and `b` are non-negative. -/
theorem gcd_comm_up_to_sign (a b : Int) :
    ∃ g h, gcd a b = some g ∧ gcd b a = some h ∧ g.natAbs = h.natAbs ∧
      g.natAbs = Int.gcd a b ∧ (0 ≤ a → 0 ≤ b → g = h) := by
  obtain ⟨g, hg, hgabs⟩ := gcd_signed a b
  obtain ⟨h, hh, hhabs⟩ := gcd_signed b a
  refine ⟨g, h, hg, hh, by rw [hgabs, hhabs, Int.gcd_comm], hgabs, fun ha hb => ?_⟩
  rw [gcd_nonneg_eq a b ha hb] at hg
  rw [gcd_nonneg_eq b a hb ha] at hh
  have h1 := Option.some.inj hg
  have h2 := Option.some.inj hh
  rw [← h1, ← h2, Int.gcd_comm]

/-- Witness for the amended C20: the inputs `-4` and `6`. -/
theorem gcd_comm_up_to_sign_witness :
    ∃ g h, gcd (-4) 6 = some g ∧ gcd 6 (-4) = some h ∧ g.natAbs = h.natAbs ∧
      g.natAbs = Int.gcd (-4) 6 ∧ ((0 : Int) ≤ -4 → (0 : Int) ≤ 6 → g = h) :=
  gcd_comm_up_to_sign (-4) 6



/-! ## A flipped signature bit -/

theorem xor_two_pow_cases (x k : Nat) :
    x ^^^ 2 ^ k = x + 2 ^ k ∨ (2 ^ k ≤ x ∧ (x ^^^ 2 ^ k) + 2 ^ k = x) := by
  have h1 : (x ^^^ 2 ^ k) % 2 ^ k = x % 2 ^ k := by
    apply Nat.eq_of_testBit_eq
    intro i
    simp only [Nat.testBit_mod_two_pow, Nat.testBit_xor, Nat.testBit_two_pow]
    by_cases hi : i < k
    · have : ¬ k = i := by omega
      simp [hi, this]
    · simp [hi]
  have h2 : (x ^^^ 2 ^ k) / 2 ^ (k + 1) = x / 2 ^ (k + 1) := by
    apply Nat.eq_of_testBit_eq
    intro i
    rw [← Nat.shiftRight_eq_div_pow, ← Nat.shiftRight_eq_div_pow, Nat.testBit_shiftRight,
      Nat.testBit_shiftRight, Nat.testBit_xor, Nat.testBit_two_pow]
    have : ¬ k = k + 1 + i := by omega
    simp [this]
  have h3 : (x ^^^ 2 ^ k).testBit k = !x.testBit k := by
    rw [Nat.testBit_xor, Nat.testBit_two_pow]
    simp
  rw [Nat.testBit_to_div_mod, Nat.testBit_to_div_mod] at h3
  have hx := Nat.div_add_mod x (2 ^ k)
  have hy := Nat.div_add_mod (x ^^^ 2 ^ k) (2 ^ k)
  have e1 : x / 2 ^ (k + 1) = x / 2 ^ k / 2 := by rw [pow_succ, Nat.div_div_eq_div_mul]
  have e2 : (x ^^^ 2 ^ k) / 2 ^ (k + 1) = (x ^^^ 2 ^ k) / 2 ^ k / 2 := by
    rw [pow_succ, Nat.div_div_eq_div_mul]
  rw [e1, e2] at h2
  rw [h1] at hy
  generalize x ^^^ 2 ^ k = y at *
  generalize x / 2 ^ k = A at *
  generalize y / 2 ^ k = B at *
  generalize x % 2 ^ k = r at *
  generalize 2 ^ k = P at *
  by_cases hA : A % 2 = 1
  · have hB : B % 2 = 0 := by
      simp [hA] at h3
      omega
    have : A = B + 1 := by omega
    subst this
    right
    have : P * (B + 1) = P * B + P := by ring
    constructor
    · rw [← hx, this]; omega
    · omega
  · have hA0 : A % 2 = 0 := by omega
    have hB : B % 2 = 1 := by
      simp [hA0] at h3
      omega
    have : B = A + 1 := by omega
    subst this
    left
    have : P * (A + 1) = P * A + P := by ring
    omega

theorem not_dvd_two_pow (p q : Nat) (hp : p.Prime) (hq : q.Prime) (hpq : p ≠ q) (k : Nat) :
    ¬ ((p : Int) * (q : Int) ∣ 2 ^ k) := by
  intro h
  have h' : p * q ∣ 2 ^ k := by exact_mod_cast h
  have h1 : p ∣ 2 ^ k := Dvd.dvd.trans (Dvd.intro _ rfl) h'
  have h2 : q ∣ 2 ^ k := Dvd.dvd.trans (Dvd.intro_left _ rfl) h'
  have e1 : p = 2 := (Nat.prime_dvd_prime_iff_eq hp Nat.prime_two).1 (hp.dvd_of_dvd_pow h1)
  have e2 : q = 2 := (Nat.prime_dvd_prime_iff_eq hq Nat.prime_two).1 (hq.dvd_of_dvd_pow h2)
  exact hpq (by rw [e1, e2])

theorem rsa_power_injective (p q : Nat) (n e d : Int) (hp : p.Prime) (hq : q.Prime)
    (hpq : p ≠ q) (hn : n = (p : Int) * (q : Int)) (he : 0 ≤ e) (hd : 0 ≤ d)
    (hed : e * d ≡ 1 [ZMOD ((p : Int) - 1) * ((q : Int) - 1)]) (x y : Int)
    (h : x ^ e.toNat % n = y ^ e.toNat % n) : x ≡ y [ZMOD n] := by
  have hk := exponent_product p q hp hq hpq e d he hd hed
  have hx := rsa_core p q hp hq hpq _ hk x
  have hy := rsa_core p q hp hq hpq _ hk y
  rw [← hn] at hx hy
  have hxy : x ^ e.toNat ≡ y ^ e.toNat [ZMOD n] := h
  calc x ≡ x ^ (e.toNat * d.toNat) [ZMOD n] := hx.symm
    _ = (x ^ e.toNat) ^ d.toNat := by rw [pow_mul]
    _ ≡ (y ^ e.toNat) ^ d.toNat [ZMOD n] := hxy.pow _
    _ = y ^ (e.toNat * d.toNat) := by rw [pow_mul]
    _ ≡ y [ZMOD n] := hy

/-- C12: for a valid key (`n = p * q` with distinct primes, non-negative exponents with
`e * d ≡ 1 (mod (p - 1) * (q - 1))`), a message `0 ≤ m < n`, the signature
`s = rsa_sign(m, d, n)` and every bit position `k` (positions above the bit length of `n`
included), `rsa_verify` rejects `s XOR 2 ^ k`. -/
theorem rsa_verify_flipped_bit (p q : Nat) (n e d m : Int) (k : Nat) (hp : p.Prime)
    (hq : q.Prime) (hpq : p ≠ q) (hn : n = (p : Int) * (q : Int)) (he : 0 ≤ e) (hd : 0 ≤ d)
    (hed : e * d ≡ 1 [ZMOD ((p : Int) - 1) * ((q : Int) - 1)])
    (hm0 : 0 ≤ m) (hmn : m < n) :
    ∃ s, rsa_sign m d n = some s ∧ 0 ≤ s ∧
      rsa_verify m ((s.toNat ^^^ 2 ^ k : Nat) : Int) e n = some false := by
  obtain ⟨h1, h2⟩ := rsa_round_trip p q n d e m hp hq hpq hn hd he
    (modEq_symm_product e d _ hed) hm0 hmn
  have hn1 : 1 < n := by
    have hp2 := hp.two_le
    have hq2 := hq.two_le
    rw [hn]
    have : (2 : Int) * 2 ≤ (p : Int) * (q : Int) :=
      mul_le_mul (by exact_mod_cast hp2) (by exact_mod_cast hq2) (by norm_num) (by omega)
    omega
  have hs0 : 0 ≤ m ^ d.toNat % n := Int.emod_nonneg _ (by omega)
  obtain ⟨S, hS⟩ := Int.eq_ofNat_of_zero_le hs0
  refine ⟨m ^ d.toNat % n, h1, hs0, ?_⟩
  rw [hS] at h2 ⊢
  rw [Int.toNat_ofNat]
  unfold rsa_verify
  rw [pow_mod_eq _ e n he hn1]
  rw [pow_mod_eq _ e n he hn1] at h2
  have hm : (S : Int) ^ e.toNat % n = m := Option.some.inj h2
  have hne : ¬ (((S ^^^ 2 ^ k : Nat) : Int) ^ e.toNat % n = m) := by
    intro heq
    have hmod := rsa_power_injective p q n e d hp hq hpq hn he hd hed
      ((S ^^^ 2 ^ k : Nat) : Int) (S : Int) (by rw [heq, hm])
    have hdvd : n ∣ (S : Int) - ((S ^^^ 2 ^ k : Nat) : Int) := Int.modEq_iff_dvd.1 hmod
    apply not_dvd_two_pow p q hp hq hpq k
    rw [← hn]
    rcases xor_two_pow_cases S k with hc | ⟨-, hc⟩
    · rw [hc] at hdvd
      have : (S : Int) - ((S + 2 ^ k : Nat) : Int) = -(2 ^ k) := by push_cast; ring
      rw [this] at hdvd
      exact (Int.dvd_neg).1 hdvd
    · have : (S : Int) - ((S ^^^ 2 ^ k : Nat) : Int) = 2 ^ k := by
        have h3 : ((S ^^^ 2 ^ k : Nat) : Int) + 2 ^ k = (S : Int) := by exact_mod_cast hc
        rw [← h3]; ring
      rw [this] at hdvd
      exact hdvd
  simp only [hne, if_false]

/-- Witness for C12: the key `n = 3 * 11`, `e = 3`, `d = 7`, the message `m = 5` and bit 40,
far above the six bits of `n`. -/
theorem rsa_verify_flipped_bit_witness :
    ∃ s, rsa_sign 5 7 33 = some s ∧ 0 ≤ s ∧
      rsa_verify 5 ((s.toNat ^^^ 2 ^ 40 : Nat) : Int) 3 33 = some false :=
  rsa_verify_flipped_bit 3 11 33 3 7 5 40 (by norm_num) (by norm_num) (by decide)
    (by norm_num) (by decide) (by decide) (by decide) (by decide) (by decide)


/-! ## Small exponents, zero rounds and out-of-range messages -/

/-- C21: for every big integer `a` (negative ones included) and every modulus `> 1`,
`pow_mod(a, 0, modulus) = 1` and `pow_mod(a, 1, modulus)` is the non-negative residue
`a mod modulus`. -/
theorem pow_mod_small_exponents (a modulus : Int) (hm : 1 < modulus) :
    pow_mod a 0 modulus = some 1 ∧ pow_mod a 1 modulus = some (a % modulus) ∧
      0 ≤ a % modulus ∧ a % modulus < modulus := by
  refine ⟨pow_mod_zero a modulus, ?_, Int.emod_nonneg _ (by omega),
    Int.emod_lt_of_pos _ (by omega)⟩
  rw [pow_mod_pos a 1 modulus (by norm_num) (by omega)]
  have : (1 : Int).toNat = 1 := rfl
  rw [this, pow_one]

/-- Witness for C21: the base `-3` and the modulus 7. -/
theorem pow_mod_small_exponents_witness :
    pow_mod (-3) 0 7 = some 1 ∧ pow_mod (-3) 1 7 = some (-3 % 7) ∧
      (0 : Int) ≤ -3 % 7 ∧ (-3 : Int) % 7 < 7 :=
  pow_mod_small_exponents (-3) 7 (by decide)

theorem is_prime_odd_unfold (rand : Nat → Nat) (n : Int) (iters pos : Nat) (h5 : 5 ≤ n)
    (hodd : n % 2 = 1) :
    ∃ (k : Nat) (r : Int), is_prime_factor_loop n.toNat 0 (n - 1) = some ((k : Int), r) ∧
      n - 1 = 2 ^ k * r ∧ r % 2 = 1 ∧ 0 < r ∧ 1 ≤ k ∧
      is_prime rand n iters pos = is_prime_witness_loop rand n k r iters pos := by
  obtain ⟨k, r, hfl, hfac, hr1, hr0⟩ :=
    is_prime_factor_loop_spec n.toNat 0 (n - 1) (by omega) (by omega)
  rw [zero_add] at hfl
  have hk : 1 ≤ k := by
    rcases Nat.eq_zero_or_pos k with h | h
    · subst h
      simp only [pow_zero, one_mul] at hfac
      omega
    · exact h
  refine ⟨k, r, hfl, hfac, hr1, hr0, hk, ?_⟩
  unfold is_prime
  rw [Int.fmod_eq_emod _ (by norm_num)]
  have h1 : ¬ n < 2 := by omega
  have h2 : ¬ (n ≠ 2 ∧ n % 2 = 0) := by omega
  have h3 : ¬ (n = 2 ∨ n = 3) := by omega
  rw [if_neg h1, if_neg h2, if_neg h3, hfl]

/-- C23: with zero iterations nothing is tested: for every odd `n ≥ 5`, prime or composite,
`is_prime(n, 0)` returns true, without any random draw. -/
theorem is_prime_zero_iters (rand : Nat → Nat) (n : Int) (pos : Nat) (h5 : 5 ≤ n)
    (hodd : n % 2 = 1) : is_prime rand n 0 pos = some (true, pos) := by
  obtain ⟨k, r, -, -, -, -, -, h⟩ := is_prime_odd_unfold rand n 0 pos h5 hodd
  rw [h]
  rfl

/-- Witness for C23: the composite 9. -/
theorem is_prime_zero_iters_witness : is_prime (fun _ => 0) 9 0 0 = some (true, 0) :=
  is_prime_zero_iters (fun _ => 0) 9 0 (by decide) (by decide)

theorem pow_mod_range (b e n : Int) (hn : 1 < n) :
    ∃ t, pow_mod b e n = some t ∧ 0 ≤ t ∧ t < n := by
  rcases le_or_lt 0 e with he | he
  · exact ⟨_, pow_mod_eq b e n he hn, Int.emod_nonneg _ (by omega),
      Int.emod_lt_of_pos _ (by omega)⟩
  · refine ⟨1, ?_, by norm_num, hn⟩
    have h0 : e.toNat = 0 := by omega
    have hlt : ¬ 0 < e := by omega
    unfold pow_mod
    rw [h0]
    simp [pow_mod_loop, hlt]

/-- C24: an out-of-range message never verifies.  For every modulus `n > 1`, every
signature `s`, every exponent `e` (the non-negative ones in particular) and every message
`m` with `m ≥ n` or `m < 0`, `rsa_verify` returns false; in particular the signature
`rsa_sign(m, d, n)` of such a message is rejected, because the comparison is against `m`
itself and not against `m mod n`. -/
theorem rsa_verify_out_of_range (m s e d n : Int) (hn : 1 < n) (hm : n ≤ m ∨ m < 0) :
    rsa_verify m s e n = some false ∧
      ∃ sg, rsa_sign m d n = some sg ∧ rsa_verify m sg e n = some false := by
  have key : ∀ x : Int, rsa_verify m x e n = some false := by
    intro x
    obtain ⟨t, ht, ht0, htn⟩ := pow_mod_range x e n hn
    unfold rsa_verify
    rw [ht]
    have hne : ¬ t = m := by omega
    simp only [hne, if_false]
  obtain ⟨sg, hsg, -⟩ := pow_mod_range m d n hn
  exact ⟨key s, sg, hsg, key sg⟩

/-- Witness for C24: the key `n = 33`, `e = 3`, `d = 7` and the message `m = 38 ≥ n`, whose
residue 5 has the signature 14. -/
theorem rsa_verify_out_of_range_witness :
    rsa_verify 38 14 3 33 = some false ∧
      ∃ sg, rsa_sign 38 7 33 = some sg ∧ rsa_verify 38 sg 3 33 = some false :=
  rsa_verify_out_of_range 38 14 3 7 33 (by decide) (Or.inl (by decide))


/-! ## Miller-Rabin rounds and the strong-probable-prime test -/

theorem modEq_neg_one_iff (n y : Int) (hn : 2 < n) (hy0 : 0 ≤ y) (hy : y < n) :
    y ≡ -1 [ZMOD n] ↔ y = n - 1 := by
  have h1 : (-1 : Int) % n = n - 1 := by
    have : (-1 : Int) = (n - 1) + (-1) * n := by ring
    rw [this, Int.add_mul_emod_self]
    exact Int.emod_eq_of_lt (by omega) (by omega)
  unfold Int.ModEq
  rw [h1, Int.emod_eq_of_lt hy0 hy]

theorem modEq_one_iff (n y : Int) (hn : 2 < n) (hy0 : 0 ≤ y) (hy : y < n) :
    y ≡ 1 [ZMOD n] ↔ y = 1 := by
  unfold Int.ModEq
  rw [Int.emod_eq_of_lt hy0 hy, Int.emod_eq_of_lt (by norm_num) (by omega)]

theorem not_one_modEq_neg_one (n : Int) (hn : 2 < n) : ¬ ((1 : Int) ≡ -1 [ZMOD n]) := by
  rw [modEq_neg_one_iff n 1 hn (by norm_num) (by omega)]
  omega

theorem is_prime_square_loop_spec (n : Int) (hn : 2 < n) (c : Nat) :
    ∀ (fuel : Nat) (j s_minus_one y : Int), c < fuel → j + c = s_minus_one + 1 →
      0 ≤ y → y < n →
      ∃ res, is_prime_square_loop fuel j s_minus_one y n = some res ∧
        (res = some (n - 1) ↔ ∃ i, i ≤ c ∧ y ^ 2 ^ i ≡ -1 [ZMOD n]) := by
  induction c with
  | zero =>
    intro fuel j sm1 y hf hj hy0 hy
    obtain ⟨f, rfl⟩ : ∃ f, fuel = f + 1 := ⟨fuel - 1, by omega⟩
    unfold is_prime_square_loop
    have hjle : ¬ j ≤ sm1 := by push_cast at hj; omega
    refine ⟨some y, by simp [hjle], ?_⟩
    constructor
    · intro h
      refine ⟨0, le_rfl, ?_⟩
      rw [pow_zero, pow_one]
      exact (modEq_neg_one_iff n y hn hy0 hy).2 (Option.some.inj h)
    · rintro ⟨i, hi, hmod⟩
      have : i = 0 := by omega
      subst this
      rw [pow_zero, pow_one] at hmod
      rw [(modEq_neg_one_iff n y hn hy0 hy).1 hmod]
  | succ c ih =>
    intro fuel j sm1 y hf hj hy0 hy
    obtain ⟨f, rfl⟩ : ∃ f, fuel = f + 1 := ⟨fuel - 1, by omega⟩
    unfold is_prime_square_loop
    by_cases hyn : y = n - 1
    · refine ⟨some y, by simp [hyn], ?_⟩
      constructor
      · intro _
        refine ⟨0, by omega, ?_⟩
        rw [pow_zero, pow_one]
        exact (modEq_neg_one_iff n y hn hy0 hy).2 hyn
      · intro _
        rw [hyn]
    · have hjle : j ≤ sm1 := by push_cast at hj; omega
      simp only [hjle, ne_eq, hyn, not_false_eq_true, and_self, if_true]
      rw [pow_mod_eq y 2 n (by norm_num) (by omega)]
      have h2 : (2 : Int).toNat = 2 := rfl
      simp only [h2]
      have hshift : ∀ i : Nat, y ^ 2 ^ (i + 1) ≡ (y ^ 2 % n) ^ 2 ^ i [ZMOD n] := by
        intro i
        calc y ^ 2 ^ (i + 1) = (y ^ 2) ^ 2 ^ i := by rw [← pow_mul, ← pow_succ']
          _ ≡ (y ^ 2 % n) ^ 2 ^ i [ZMOD n] := ((Int.mod_modEq _ _).pow _).symm
      have hzero : ¬ (y ^ 2 ^ 0 ≡ -1 [ZMOD n]) := by
        rw [pow_zero, pow_one, modEq_neg_one_iff n y hn hy0 hy]
        exact hyn
      by_cases hy1 : y ^ 2 % n = 1
      · refine ⟨none, by simp [hy1], ?_⟩
        constructor
        · intro h; simp at h
        · rintro ⟨i, hi, hmod⟩
          exfalso
          cases i with
          | zero => exact hzero hmod
          | succ i =>
            have := (hshift i).symm.trans hmod
            rw [hy1, one_pow] at this
            exact not_one_modEq_neg_one n hn this
      · simp only [hy1, if_false]
        obtain ⟨res, hres, hiff⟩ := ih f (j + 1) sm1 (y ^ 2 % n) (by omega)
          (by push_cast at hj ⊢; omega) (Int.emod_nonneg _ (by omega))
          (Int.emod_lt_of_pos _ (by omega))
        refine ⟨res, hres, hiff.trans ?_⟩
        constructor
        · rintro ⟨i, hi, hmod⟩
          exact ⟨i + 1, by omega, (hshift i).trans hmod⟩
        · rintro ⟨i, hi, hmod⟩
          cases i with
          | zero => exact absurd hmod hzero
          | succ i => exact ⟨i, by omega, (hshift i).symm.trans hmod⟩

theorem round_pass_iff (n : Int) (h5 : 5 ≤ n) (k : Nat) (hk : 1 ≤ k) (r a : Int) :
    (a ^ r.toNat % n = 1 ∨ a ^ r.toNat % n = n - 1 → strong_probable_prime n k r a) ∧
      (¬ (a ^ r.toNat % n = 1 ∨ a ^ r.toNat % n = n - 1) →
        ∃ res, is_prime_square_loop ((k : Int).toNat + 1) 1 ((k : Int) - 1)
            (a ^ r.toNat % n) n = some res ∧
          (res = some (n - 1) ↔ strong_probable_prime n k r a)) := by
  have hy0 : 0 ≤ a ^ r.toNat % n := Int.emod_nonneg _ (by omega)
  have hyn : a ^ r.toNat % n < n := Int.emod_lt_of_pos _ (by omega)
  have hyr : a ^ r.toNat % n ≡ a ^ r.toNat [ZMOD n] := Int.mod_modEq _ _
  have hpow : ∀ j : Nat, (a ^ r.toNat % n) ^ 2 ^ j ≡ a ^ (2 ^ j * r.toNat) [ZMOD n] := by
    intro j
    calc (a ^ r.toNat % n) ^ 2 ^ j ≡ (a ^ r.toNat) ^ 2 ^ j [ZMOD n] := hyr.pow _
      _ = a ^ (2 ^ j * r.toNat) := by rw [← pow_mul, mul_comm]
  have hone : a ^ r.toNat ≡ 1 [ZMOD n] ↔ a ^ r.toNat % n = 1 := by
    rw [← modEq_one_iff n _ (by omega) hy0 hyn]
    exact ⟨fun h => hyr.trans h, fun h => hyr.symm.trans h⟩
  constructor
  · rintro (h | h)
    · exact Or.inl (hone.2 h)
    · right
      refine ⟨0, by omega, ?_⟩
      have := (modEq_neg_one_iff n _ (by omega) hy0 hyn).2 h
      have h0 := hpow 0
      rw [pow_zero, pow_one] at h0
      exact h0.symm.trans this
  · intro hnot
    obtain ⟨res, hres, hiff⟩ := is_prime_square_loop_spec n (by omega) (k - 1)
      ((k : Int).toNat + 1) 1 ((k : Int) - 1) (a ^ r.toNat % n) (by simp; omega)
      (by push_cast [Nat.cast_sub hk]; ring) hy0 hyn
    refine ⟨res, hres, hiff.trans ?_⟩
    unfold strong_probable_prime
    constructor
    · rintro ⟨i, hi, hmod⟩
      exact Or.inr ⟨i, by omega, (hpow i).symm.trans hmod⟩
    · rintro (h | ⟨j, hj, hmod⟩)
      · exact absurd (Or.inl (hone.1 h)) hnot
      · exact ⟨j, by omega, (hpow j).trans hmod⟩

theorem is_prime_witness_loop_spec (rand : Nat → Nat) (n : Int) (h5 : 5 ≤ n) (k : Nat)
    (hk : 1 ≤ k) (r : Int) (hr : 0 < r) (iters : Nat) :
    ∀ pos, ∃ b pos1, is_prime_witness_loop rand n k r iters pos = some (b, pos1) ∧
      (b = true ↔ ∀ i, i < iters →
        strong_probable_prime n k r (mpz_urandomm rand (pos + i) (n - 3) + 2)) := by
  induction iters with
  | zero =>
    intro pos
    exact ⟨true, pos, rfl, by simp⟩
  | succ it ih =>
    intro pos
    obtain ⟨b, pos1, hrec, hb⟩ := ih (pos + 1)
    have hsplit : (∀ i, i < it + 1 →
        strong_probable_prime n k r (mpz_urandomm rand (pos + i) (n - 3) + 2)) ↔
        (strong_probable_prime n k r (mpz_urandomm rand pos (n - 3) + 2) ∧ ∀ i, i < it →
          strong_probable_prime n k r (mpz_urandomm rand (pos + 1 + i) (n - 3) + 2)) := by
      constructor
      · intro h
        refine ⟨by simpa using h 0 (by omega), fun i hi => ?_⟩
        have := h (i + 1) (by omega)
        have e : pos + (i + 1) = pos + 1 + i := by omega
        rwa [e] at this
      · rintro ⟨h0, h⟩ i hi
        cases i with
        | zero => simpa using h0
        | succ i =>
          have := h i (by omega)
          have e : pos + (i + 1) = pos + 1 + i := by omega
          rwa [e]
    obtain ⟨hpass, hloop⟩ := round_pass_iff n h5 k hk r (mpz_urandomm rand pos (n - 3) + 2)
    unfold is_prime_witness_loop
    dsimp only
    rw [pow_mod_eq _ r n (le_of_lt hr) (by omega)]
    dsimp only
    generalize mpz_urandomm rand pos (n - 3) + 2 = a at hpass hloop hsplit ⊢
    by_cases hy : a ^ r.toNat % n ≠ 1 ∧ a ^ r.toNat % n ≠ n - 1
    · rw [if_pos hy]
      obtain ⟨res, hres, hiff⟩ := hloop (by
        rintro (h | h)
        · exact hy.1 h
        · exact hy.2 h)
      rw [hres]
      cases res with
      | none =>
        refine ⟨false, pos + 1, rfl, ?_⟩
        rw [hsplit]
        constructor
        · intro h; cases h
        · rintro ⟨h0, -⟩
          have := hiff.2 h0
          cases this
      | some y1 =>
        dsimp only
        by_cases hy1 : y1 = n - 1
        · subst hy1
          have h0 := hiff.1 rfl
          simp only [ne_eq, not_true_eq_false, if_false]
          exact ⟨b, pos1, hrec, by rw [hsplit, hb]; exact ⟨fun h => ⟨h0, h⟩, fun h => h.2⟩⟩
        · rw [if_pos hy1]
          refine ⟨false, pos + 1, rfl, ?_⟩
          rw [hsplit]
          constructor
          · intro h; cases h
          · rintro ⟨h0, -⟩
            have := Option.some.inj (hiff.2 h0)
            exact absurd this hy1
    · rw [if_neg hy]
      have h0 := hpass (by
        by_contra hcon
        push_neg at hcon
        exact hy hcon)
      exact ⟨b, pos1, hrec, by rw [hsplit, hb]; exact ⟨fun h => ⟨h0, h⟩, fun h => h.2⟩⟩

/-- C22: for every odd `n ≥ 5` the factoring loop returns `s ≥ 1` and an odd `r` with
`n - 1 = 2 ^ s * r`, the witnesses `2 + (draw mod (n - 3))` lie in `[2, n - 2]`, and
`is_prime(n, iters)` returns true if and only if each of its `iters` witnesses passes the
strong-probable-prime test `a ^ r ≡ 1` or `a ^ (2 ^ j * r) ≡ -1 (mod n)` for some
`0 ≤ j < s`. -/
theorem is_prime_iff_strong_probable_prime (rand : Nat → Nat) (n : Int) (iters pos : Nat)
    (h5 : 5 ≤ n) (hodd : n % 2 = 1) :
    ∃ (s : Nat) (r : Int), is_prime_factor_loop n.toNat 0 (n - 1) = some ((s : Int), r) ∧
      n - 1 = 2 ^ s * r ∧ r % 2 = 1 ∧ 1 ≤ s ∧
      (∀ i, 2 ≤ mpz_urandomm rand (pos + i) (n - 3) + 2 ∧
        mpz_urandomm rand (pos + i) (n - 3) + 2 ≤ n - 2) ∧
      ∃ b pos1, is_prime rand n iters pos = some (b, pos1) ∧
        (b = true ↔ ∀ i, i < iters →
          strong_probable_prime n s r (mpz_urandomm rand (pos + i) (n - 3) + 2)) := by
  obtain ⟨k, r, hfl, hfac, hr1, hr0, hk, hunf⟩ := is_prime_odd_unfold rand n iters pos h5 hodd
  obtain ⟨b, pos1, hloop, hb⟩ := is_prime_witness_loop_spec rand n h5 k hk r hr0 iters pos
  refine ⟨k, r, hfl, hfac, hr1, hk, fun i => ?_, b, pos1, by rw [hunf, hloop], hb⟩
  unfold mpz_urandomm
  have hlt : rand (pos + i) % (n - 3).natAbs < (n - 3).natAbs := Nat.mod_lt _ (by omega)
  omega

/-- Witness for C22: the composite 9 with two rounds. -/
theorem is_prime_iff_strong_probable_prime_witness :
    ∃ (s : Nat) (r : Int), is_prime_factor_loop (9 : Int).toNat 0 (9 - 1) = some ((s : Int), r) ∧
      (9 : Int) - 1 = 2 ^ s * r ∧ r % 2 = 1 ∧ 1 ≤ s ∧
      (∀ i, 2 ≤ mpz_urandomm (fun _ => 0) (0 + i) (9 - 3) + 2 ∧
        mpz_urandomm (fun _ => 0) (0 + i) (9 - 3) + 2 ≤ 9 - 2) ∧
      ∃ b pos1, is_prime (fun _ => 0) 9 2 0 = some (b, pos1) ∧
        (b = true ↔ ∀ i, i < 2 →
          strong_probable_prime 9 s r (mpz_urandomm (fun _ => 0) (0 + i) (9 - 3) + 2)) :=
  is_prime_iff_strong_probable_prime (fun _ => 0) 9 2 0 (by decide) (by decide)

end RSA
